import Mathlib

/-!
Verification development for the scalable arithmetic (range) coder of
`scalable_ac.hpp` (encoder, class `scalable_ac_c`) and `scalable_adc.hpp`
(decoder, class `scalable_adc_c`).

The coder is parameterised over an unsigned probability (counter) type `P`
and a wide range type `R` with `bits(R) >= 2 * bits(P)`.  We embed it with
`wp = bits(P)` (`k_max_bits` in the source) as an explicit parameter and
represent both `P`-typed and `R`-typed machine integers as `Nat`.

Faithfulness conventions, used uniformly below:
* `x & m` where `m` is an all-ones mask `2^k - 1` is written `x % 2^k`
  (a universally valid identity on machine words);
* `x >> k` is written `x / 2^k`, `x << 1` is written `2 * x`;
* one-bit tests `x & (1 << k)` are written `Nat.testBit x k`;
* `P`-typed arithmetic that can wrap carries an explicit `% 2^wp`;
* `R`-typed subtractions in the source occur only where the theorems'
  hypotheses make them non-wrapping, and are written with truncated
  `Nat` subtraction;
* the external bit sink (`bit_streams::bit_stream_writer_c`) is a `List Bool`
  of emitted bits, MSB first; `write(v, 1)` appends one bit and the 64-bit
  underflow bursts of `uf_mask` (all-ones or all-zero words) concatenate to
  `List.replicate count bit`, which is how we model them.
* the external bit source (`bit_streams::bit_stream_reader_c`) is missing
  from the sources (it lives in the separate `lib_bitstreams` dependency).
  Modelled from the spec: `read(1)` yields the next stream bit, MSB first;
  reads past the end of the stream yield 0 (the writer's `close` pads the
  final byte, and padding bits are zero).  This is the `List.getD pos false`
  convention below.
* a do/while renormalisation loop is embedded with explicit fuel and result
  `Option`: `none` means the fuel was exhausted before the loop exited.
  All theorems run it with fuel `wp + 1`, which the renormalisation-progress
  theorem shows is sufficient on states satisfying the range invariant.
-/

namespace ArithCoder

/-- Derived constant `k_hi_bit_val = 1 << (k_max_bits - 1)`. -/
def hiVal (wp : ℕ) : ℕ := 2 ^ (wp - 1)

/-- Derived constant `k_low_bit_val = 1 << (k_max_bits - 2)`. -/
def loVal (wp : ℕ) : ℕ := 2 ^ (wp - 2)

/-- Derived constant `k_low_bit_mask = (1 << (k_max_bits - 2)) - 1`. -/
def loMask (wp : ℕ) : ℕ := 2 ^ (wp - 2) - 1

/-- Derived constant `k_max_range = k_low_bit_mask`, the model rescale ceiling
(`MAX_TOTAL` in the specification). -/
def maxTotal (wp : ℕ) : ℕ := 2 ^ (wp - 2) - 1

/-- Value of the first `n` bits (MSB first) of a bit sequence; positions past
the end of the list read as 0 (see the bit-source convention above). -/
def wval (s : List Bool) : ℕ → ℕ
  | 0 => 0
  | n + 1 => wval s n * 2 + (s.getD n false).toNat

/-- Adaptive model update after coding symbol `s`: the loop
`for (p0 = &C[s+1]; p0 < &C[maxSyms+1]; ++p0) *p0 += 1` shared by
`scalable_ac_c::encode_symbol`, `scalable_ac_c::estimate_cost` and
`scalable_adc_c::decode_symbol`.  Entries `s+1 .. maxSyms` (the whole tail
of the table) are incremented in `P`-typed arithmetic. -/
def updateModel (wp s : ℕ) (C : List ℕ) : List ℕ :=
  C.take (s + 1) ++ (C.drop (s + 1)).map (fun c => (c + 1) % 2 ^ wp)

/-- Tail pass of `scale_model`: `curr = *p0 >> 1; if (curr <= prev)
curr = prev + 1; *p0++ = curr; prev = curr;` repeated over the table tail. -/
def scaleAux (wp : ℕ) (prev : ℕ) : List ℕ → List ℕ
  | [] => []
  | c :: rest =>
    (if c / 2 ≤ prev then (prev + 1) % 2 ^ wp else c / 2) ::
      scaleAux wp (if c / 2 ≤ prev then (prev + 1) % 2 ^ wp else c / 2) rest

/-- `scalable_ac_c::scale_model` / `scalable_adc_c::scale_model` (the two
member functions are textually identical): `prev` starts as `C[0]`, which is
left unchanged, and the pass above rewrites `C[1] .. C[maxSyms]`. -/
def scaleModel (wp : ℕ) : List ℕ → List ℕ
  | [] => []
  | c0 :: rest => c0 :: scaleAux wp c0 rest

/-- Rescale pass as worded in the specification (section 3, "Rescale"):
`let prev = C[0] = 0; for i from 1 to N: curr = C[i] >> 1;
if curr <= prev then curr = prev + 1; C[i] = curr; prev = curr`.
Stated without modular wrap-around, as the specification's arithmetic is
exact; the refinement theorem compares it with `scaleModel`. -/
def scaleSpecAux (prev : ℕ) : List ℕ → List ℕ
  | [] => []
  | c :: rest =>
    (if c / 2 ≤ prev then prev + 1 else c / 2) ::
      scaleSpecAux (if c / 2 ≤ prev then prev + 1 else c / 2) rest

/-- Whole-table version of the specification's rescale pass. -/
def scaleSpec : List ℕ → List ℕ
  | [] => []
  | c0 :: rest => c0 :: scaleSpecAux c0 rest

/-- Encoder state: fields `m_high, m_low, m_underflow_count, m_tmp_range,
m_max_syms, m_probability, m_flushed` of `scalable_ac_c`, plus `hasStream`
recording whether `m_stream` is non-null. -/
structure EncState where
  high : ℕ
  low : ℕ
  underflowCount : ℕ
  tmpRange : ℕ
  maxSyms : ℕ
  probability : List ℕ
  flushed : Bool
  hasStream : Bool
  deriving Repr, DecidableEq

/-- Result of one run of the encoder renormalisation loop: final
`(low, high, underflow count)`, the bits written to the sink, the bit cost
accumulated by `range_code`, and the number of loop iterations that did work
(a ghost counter used by the progress theorem). -/
structure RenormOut where
  low : ℕ
  high : ℕ
  uc : ℕ
  bits : List Bool
  cost : ℕ
  iters : ℕ
  deriving Repr, DecidableEq

/-- The `do { ... } while (1)` renormalisation loop of
`scalable_ac_c::range_code`, with explicit fuel.  Case A (top bits equal)
emits the shared top bit `m_high >> k_hi_bit` and then `underflow_count`
copies of the burst bit `(m_high >> k_hi_bit) ^ 1` (which is the complement
whenever `high < 2^wp`); with `simulate` set nothing is emitted.  The cost
`underflow_count + 1` is accumulated in both modes, exactly as in the source.
Case B (underflow) increments the counter and does
`low &= k_low_bit_mask; high |= k_low_bit_val` (the branch guard guarantees
bit `wp-2` of `high` is clear, so the or is an addition).  Both cases then
shift: `low = (low << 1) & mask; high = ((high << 1) | 1) & mask`. -/
def encRenorm (wp : ℕ) (simulate : Bool) : ℕ → ℕ → ℕ → ℕ → Option RenormOut
  | 0, _, _, _ => none
  | fuel + 1, low, high, uc =>
    if high.testBit (wp - 1) = low.testBit (wp - 1) then
      match encRenorm wp simulate fuel ((2 * low) % 2 ^ wp) ((2 * high + 1) % 2 ^ wp) 0 with
      | none => none
      | some r =>
        some ⟨r.low, r.high, r.uc,
          (if simulate then [] else
            decide (high / 2 ^ (wp - 1) % 2 = 1) ::
              List.replicate uc (decide ((high / 2 ^ (wp - 1) ^^^ 1) ≠ 0))) ++ r.bits,
          uc + 1 + r.cost, r.iters + 1⟩
    else if low.testBit (wp - 2) && !high.testBit (wp - 2) then
      match encRenorm wp simulate fuel ((2 * (low % 2 ^ (wp - 2))) % 2 ^ wp)
          ((2 * (high + 2 ^ (wp - 2)) + 1) % 2 ^ wp) (uc + 1) with
      | none => none
      | some r => some ⟨r.low, r.high, r.uc, r.bits, r.cost, r.iters + 1⟩
    else
      some ⟨low, high, uc, [], 0, 0⟩

/-- `scalable_ac_c::range_code(symbol, simulate)`: range narrowing by the
symbol's cumulative slice followed by the renormalisation loop.  Returns the
updated state, the bits written, and the returned cost. -/
def rangeCode (wp : ℕ) (simulate : Bool) (st : EncState) (symbol : ℕ) :
    Option (EncState × List Bool × ℕ) :=
  let symLow := st.probability.getD symbol 0
  let symHigh := st.probability.getD (symbol + 1) 0
  let total := st.probability.getD st.maxSyms 0
  let tr := (st.high - st.low) + 1
  let high₁ := st.low + tr * symHigh / total - 1
  let low₁ := st.low + tr * symLow / total
  match encRenorm wp simulate (wp + 1) low₁ high₁ st.underflowCount with
  | none => none
  | some r =>
    some ({ st with low := r.low, high := r.high, underflowCount := r.uc, tmpRange := tr },
      r.bits, r.cost)

/-- Shared tail of `encode_symbol` / `estimate_cost` / `decode_symbol`:
adaptive increment, then `if (C[maxSyms] >= k_max_range) scale_model()`. -/
def updateAndScale (wp s maxSyms : ℕ) (C : List ℕ) : List ℕ :=
  let C₁ := updateModel wp s C
  if maxTotal wp ≤ C₁.getD maxSyms 0 then scaleModel wp C₁ else C₁

/-- `scalable_ac_c::encode_symbol`. -/
def encodeSymbol (wp : ℕ) (st : EncState) (s : ℕ) : Option (EncState × List Bool) :=
  match rangeCode wp false st s with
  | none => none
  | some (st₁, bits, _) =>
    some ({ st₁ with probability := updateAndScale wp s st₁.maxSyms st₁.probability }, bits)

/-- `scalable_ac_c::estimate_cost` (single-symbol overload): `range_code`
with the simulate flag, then the same model update.  The `List Bool`
component is what got written to the sink during the call. -/
def estimateCost (wp : ℕ) (st : EncState) (s : ℕ) : Option (EncState × ℕ × List Bool) :=
  match rangeCode wp true st s with
  | none => none
  | some (st₁, bits, cost) =>
    some ({ st₁ with probability := updateAndScale wp s st₁.maxSyms st₁.probability },
      cost, bits)

/-- A sequence of single-symbol `estimate_cost` calls, threading the state and
collecting everything written to the sink. -/
def estimateList (wp : ℕ) (st : EncState) : List ℕ → Option (EncState × ℕ × List Bool)
  | [] => some (st, 0, [])
  | s :: rest =>
    match estimateCost wp st s with
    | none => none
    | some (st₁, c₁, b₁) =>
      match estimateList wp st₁ rest with
      | none => none
      | some (st₂, c₂, b₂) => some (st₂, c₁ + c₂, b₁ ++ b₂)

/-- `scalable_ac_c::flush(force)`.  Returns the new state, the bits written
to the sink, and the `bool` return value of the member function.  On the
active path the incremented counter's worth of burst bits
`((m_low >> k_low_bit) ^ 1) & 1` follows the bit `(m_low >> k_low_bit) & 1`. -/
def flushEnc (wp : ℕ) (st : EncState) (force : Bool) : EncState × List Bool × Bool :=
  if !st.hasStream then (st, [], false)
  else if !st.flushed || force then
    let uc := st.underflowCount + 1
    let b := st.low.testBit (wp - 2)
    ({ st with underflowCount := 0, flushed := true },
      b :: List.replicate uc (!b), false)
  else (st, [], false)

/-- `scalable_ac_c::init(max_symbols, stream)` after its guards: uniform
model `C[i] = i`, full initial range.  `init` rejects a null stream and
`max_symbols == 0`; theorems use it with those guards satisfied. -/
def initEnc (wp n : ℕ) : EncState :=
  { high := 2 ^ wp - 1, low := 0, underflowCount := 0, tmpRange := 0,
    maxSyms := n, probability := List.range (n + 1), flushed := false,
    hasStream := true }

/-- `scalable_ac_c::expand(max_symbols)`: old entries are copied, new entries
`maxSyms+1 .. max_symbols` are filled with `tmp[i] = i`. -/
def encExpand (st : EncState) (maxSymbols : ℕ) : Option EncState :=
  if st.probability = [] then none
  else if maxSymbols ≤ st.maxSyms then none
  else some { st with
    probability := (List.range (maxSymbols + 1)).map
      (fun i => if i ≤ st.maxSyms then st.probability.getD i 0 else i),
    maxSyms := maxSymbols }

/-- Snapshot `scalable_ac_state_t`. -/
structure EncSnapshot where
  high : ℕ
  low : ℕ
  underflowCount : ℕ
  tmpRange : ℕ
  maxSyms : ℕ
  probability : List ℕ
  flushed : Bool
  deriving Repr, DecidableEq

/-- `scalable_ac_c::save_state`: deep copy of the `maxSyms + 1` model entries
and of the scalar fields (allocation failure is not modelled). -/
def saveState (st : EncState) : EncSnapshot :=
  { high := st.high, low := st.low, underflowCount := st.underflowCount,
    tmpRange := st.tmpRange, maxSyms := st.maxSyms,
    probability := (List.range (st.maxSyms + 1)).map (fun i => st.probability.getD i 0),
    flushed := st.flushed }

/-- `scalable_ac_c::restore_state`: on both source paths (reallocate when the
alphabet sizes differ, reuse the array otherwise) `m_max_syms` ends equal to
`state->max_syms` and entries `0 .. max_syms` are copied back; then every
scalar field is overwritten.  `m_stream` is untouched.  The `cleanup`
argument only frees the snapshot and has no observable effect on the coder. -/
def restoreState (st : EncState) (snap : EncSnapshot) : EncState :=
  { st with
    high := snap.high, low := snap.low, underflowCount := snap.underflowCount,
    tmpRange := snap.tmpRange, maxSyms := snap.maxSyms,
    probability := (List.range (snap.maxSyms + 1)).map (fun i => snap.probability.getD i 0),
    flushed := snap.flushed }

/-- Decoder state: fields `m_high, m_low, m_tmp_range, m_max_syms, m_code,
m_probability` of `scalable_adc_c`, plus `pos`, the number of bits consumed
so far from the input stream (the read cursor of the external bit source). -/
structure DecState where
  high : ℕ
  low : ℕ
  tmpRange : ℕ
  maxSyms : ℕ
  code : ℕ
  pos : ℕ
  probability : List ℕ
  deriving Repr, DecidableEq

/-- The `do { ... } while (1)` loop of `scalable_adc_c::remove_range`, with
explicit fuel, over input stream `S`.  Case A (top bits equal) does nothing
before the shift; case B does `code ^= k_low_bit_val` (written as the
equivalent conditional add/subtract on bit `wp-2`),
`low &= k_low_bit_mask; high |= k_low_bit_val`; otherwise the loop returns.
Both active cases then shift, the code register pulling in the next stream
bit: `code = ((code << 1) | read(1)) & mask`.  Returns
`(low, high, code, pos, iters)`. -/
def decRenorm (wp : ℕ) (S : List Bool) : ℕ → ℕ → ℕ → ℕ → ℕ → Option (ℕ × ℕ × ℕ × ℕ × ℕ)
  | 0, _, _, _, _ => none
  | fuel + 1, low, high, code, pos =>
    if high.testBit (wp - 1) = low.testBit (wp - 1) then
      match decRenorm wp S fuel ((2 * low) % 2 ^ wp) ((2 * high + 1) % 2 ^ wp)
          ((2 * code + (S.getD pos false).toNat) % 2 ^ wp) (pos + 1) with
      | none => none
      | some (l, h, c, p, i) => some (l, h, c, p, i + 1)
    else if low.testBit (wp - 2) && !high.testBit (wp - 2) then
      match decRenorm wp S fuel ((2 * (low % 2 ^ (wp - 2))) % 2 ^ wp)
          ((2 * (high + 2 ^ (wp - 2)) + 1) % 2 ^ wp)
          ((2 * (if code.testBit (wp - 2) then code - 2 ^ (wp - 2)
              else code + 2 ^ (wp - 2)) + (S.getD pos false).toNat) % 2 ^ wp)
          (pos + 1) with
      | none => none
      | some (l, h, c, p, i) => some (l, h, c, p, i + 1)
    else
      some (low, high, code, pos, 0)

/-- `scalable_adc_c::remove_range(symbol)`: the same range narrowing as the
encoder, then the decoder renormalisation loop. -/
def removeRange (wp : ℕ) (S : List Bool) (st : DecState) (symbol : ℕ) : Option DecState :=
  let symLow := st.probability.getD symbol 0
  let symHigh := st.probability.getD (symbol + 1) 0
  let total := st.probability.getD st.maxSyms 0
  let tr := (st.high - st.low) + 1
  let high₁ := st.low + tr * symHigh / total - 1
  let low₁ := st.low + tr * symLow / total
  match decRenorm wp S (wp + 1) low₁ high₁ st.code st.pos with
  | none => none
  | some (l, h, c, p, _) =>
    some { st with low := l, high := h, code := c, pos := p, tmpRange := tr }

/-- `scalable_adc_c::get_current_prob(range)`: sets `m_tmp_range` and returns
`(((code - low) + 1) * range - 1) / tmp_range`.  Returned as the pair
`(tmp_range, prob)`. -/
def getCurrentProb (st : DecState) (range : ℕ) : ℕ × ℕ :=
  let tr := (st.high - st.low) + 1
  (tr, ((st.code - st.low + 1) * range - 1) / tr)

/-- The downward symbol scan of `scalable_adc_c::decode_symbol`:
`sym = maxSyms ? maxSyms - 1 : 0; if (sym && C[sym] > prob)
do {} while (sym && C[--sym] > prob);` — starting from `s`, walk down while
the entry exceeds `prob`, stopping at 0. -/
def scanDown (C : List ℕ) (prob : ℕ) : ℕ → ℕ
  | 0 => 0
  | s + 1 => if prob < C.getD (s + 1) 0 then scanDown C prob s else s + 1

/-- `scalable_adc_c::decode_symbol`: locate the symbol from the current code,
remove its range, update the model, rescale if the ceiling is reached. -/
def decodeSymbol (wp : ℕ) (S : List Bool) (st : DecState) : Option (DecState × ℕ) :=
  let total := st.probability.getD st.maxSyms 0
  let (tr, prob) := getCurrentProb st total
  let st₀ := { st with tmpRange := tr }
  let sym₀ := if st.maxSyms ≠ 0 then st.maxSyms - 1 else 0
  let sym := scanDown st.probability prob sym₀
  match removeRange wp S st₀ sym with
  | none => none
  | some st₁ =>
    some ({ st₁ with probability := updateAndScale wp sym st₁.maxSyms st₁.probability }, sym)

/-- `scalable_adc_c::init(max_symbols, stream)` after its guards: uniform
model, full range, and `m_code` loaded with the first `k_max_bits` stream
bits, MSB first (`for i < k_max_bits: code = (code << 1) | read(1)`), which
is `wval S wp`. -/
def initDec (wp n : ℕ) (S : List Bool) : DecState :=
  { high := 2 ^ wp - 1, low := 0, tmpRange := 0, maxSyms := n,
    code := wval S wp, pos := wp, probability := List.range (n + 1) }

/-- `scalable_adc_c::expand(max_symbols)`: old entries are copied, but new
entries restart from zero: `for (i = maxSyms+1, j = 0; i <= max_symbols; i++)
tmp[i] = j++`. -/
def decExpand (st : DecState) (maxSymbols : ℕ) : Option DecState :=
  if st.probability = [] then none
  else if maxSymbols ≤ st.maxSyms then none
  else some { st with
    probability := (List.range (maxSymbols + 1)).map
      (fun i => if i ≤ st.maxSyms then st.probability.getD i 0 else i - (st.maxSyms + 1)),
    maxSyms := maxSymbols }

/-- Encode a list of symbols in sequence, concatenating the emitted bits. -/
def encodeSymbols (wp : ℕ) (st : EncState) : List ℕ → Option (EncState × List Bool)
  | [] => some (st, [])
  | s :: rest =>
    match encodeSymbol wp st s with
    | none => none
    | some (st₁, b₁) =>
      match encodeSymbols wp st₁ rest with
      | none => none
      | some (st₂, b₂) => some (st₂, b₁ ++ b₂)

/-- Encode a list of symbols and terminate the stream with `flush()`. -/
def encodeFrom (wp : ℕ) (st : EncState) (syms : List ℕ) : Option (EncState × List Bool) :=
  match encodeSymbols wp st syms with
  | none => none
  | some (st₁, b) =>
    let r := flushEnc wp st₁ false
    some (r.1, b ++ r.2.1)

/-- The adaptive-mode encoder driver of `example_adaptive.cpp`: alphabet
`256 + 1` with 256 as the EOF symbol; encode every input byte, then the EOF
symbol, then flush. -/
def encodeAll (wp : ℕ) (B : List ℕ) : Option (EncState × List Bool) :=
  encodeFrom wp (initEnc wp 257) (B ++ [256])

/-- Decode `n` symbols in sequence from stream `S`. -/
def decodeFrom (wp : ℕ) (S : List Bool) (st : DecState) : ℕ → Option (DecState × List ℕ)
  | 0 => some (st, [])
  | n + 1 =>
    match decodeSymbol wp S st with
    | none => none
    | some (st₁, s) =>
      match decodeFrom wp S st₁ n with
      | none => none
      | some (st₂, out) => some (st₂, s :: out)

/-- The adaptive-mode decoder driver of `example_adaptive.cpp`: alphabet
`256 + 1`, decode symbols from the stream. -/
def decodeAll (wp : ℕ) (S : List Bool) (n : ℕ) : Option (DecState × List ℕ) :=
  decodeFrom wp S (initDec wp 257 S) n

/-- Window containment: the next `uc + wp` bits of `tail` (the part of the
final bit stream not yet retired by the encoder), read as an integer, lie
between `low` and `high` shifted by the pending-underflow offset
`(2^uc - 1) * 2^(wp-1)`.  This is the invariant that ties an encoder state
to the bit stream it will eventually have produced. -/
def contAt (wp : ℕ) (tail : List Bool) (low high uc : ℕ) : Prop :=
  low + (2 ^ uc - 1) * 2 ^ (wp - 1) ≤ wval tail (uc + wp) ∧
  wval tail (uc + wp) ≤ high + (2 ^ uc - 1) * 2 ^ (wp - 1)

/-- Well-formedness invariant of the adaptive encoder between symbols:
alphabet bookkeeping, a strictly increasing cumulative model below the
rescale ceiling, the renormalised range (both loop guards fail), and the
flags of an initialised, unflushed coder. -/
def EncOk (wp n : ℕ) (st : EncState) : Prop :=
  st.maxSyms = n ∧
  st.probability.length = n + 1 ∧
  st.probability.getD 0 0 = 0 ∧
  st.probability.Chain' (· < ·) ∧
  st.probability.getD n 0 < maxTotal wp ∧
  st.low ≤ st.high ∧ st.high < 2 ^ wp ∧
  ¬(st.high.testBit (wp - 1) = st.low.testBit (wp - 1)) ∧
  (st.low.testBit (wp - 2) && !st.high.testBit (wp - 2)) = false ∧
  st.flushed = false ∧ st.hasStream = true

/-- Synchronisation of the decoder with the encoder at a symbol boundary:
same range and model, the read cursor is `wp` plus the encoder's pending
underflow bits ahead of the `aPos` bits already written, and the code
register holds the current stream window minus the underflow offset. -/
def DecSyncAt (wp : ℕ) (S : List Bool) (aPos : ℕ) (e : EncState) (d : DecState) : Prop :=
  d.low = e.low ∧ d.high = e.high ∧ d.maxSyms = e.maxSyms ∧
  d.probability = e.probability ∧
  d.pos = aPos + e.underflowCount + wp ∧
  d.code + (2 ^ e.underflowCount - 1) * 2 ^ (wp - 1) =
    wval (S.drop aPos) (e.underflowCount + wp)

/-! ## Basic lemmas about the model table -/

/-- Spelling of strict monotonicity of the cumulative table through `getD`. -/
theorem chain'_lt_iff_getD (C : List ℕ) :
    C.Chain' (· < ·) ↔ ∀ i, i + 1 < C.length → C.getD i 0 < C.getD (i + 1) 0 := by
  rw [List.chain'_iff_get]
  constructor
  · intro h i hi
    rw [List.getD_eq_getElem C 0 (by omega), List.getD_eq_getElem C 0 hi]
    exact h i (by omega)
  · intro h i hi
    have := h i (by omega)
    rw [List.getD_eq_getElem C 0 (by omega), List.getD_eq_getElem C 0 (by omega)] at this
    exact this

theorem strict_getD_lt {C : List ℕ} (h : C.Chain' (· < ·)) {i j : ℕ}
    (hij : i < j) (hj : j < C.length) : C.getD i 0 < C.getD j 0 := by
  induction j with
  | zero => omega
  | succ k ih =>
    have hk := (chain'_lt_iff_getD C).mp h k hj
    rcases Nat.lt_or_ge i k with hik | hik
    · exact lt_trans (ih hik (by omega)) hk
    · have : i = k := by omega
      subst this; exact hk

theorem strict_getD_le {C : List ℕ} (h : C.Chain' (· < ·)) {i j : ℕ}
    (hij : i ≤ j) (hj : j < C.length) : C.getD i 0 ≤ C.getD j 0 := by
  rcases Nat.lt_or_ge i j with hlt | hge
  · exact le_of_lt (strict_getD_lt h hlt hj)
  · have : i = j := by omega
    subst this; exact le_rfl

theorem updateModel_length (wp s : ℕ) (C : List ℕ) :
    (updateModel wp s C).length = C.length := by
  simp [updateModel]
  omega

theorem updateModel_getD (wp s : ℕ) (C : List ℕ) (i : ℕ) (hi : i < C.length) :
    (updateModel wp s C).getD i 0 =
      if s + 1 ≤ i then (C.getD i 0 + 1) % 2 ^ wp else C.getD i 0 := by
  unfold updateModel
  rcases Nat.lt_or_ge i (s + 1) with h | h
  · rw [if_neg (by omega), List.getD_append _ _ _ _ (by simp; omega)]
    rw [List.getD_eq_getElem C 0 hi, List.getD_eq_getElem _ 0 (by simp; omega),
      List.getElem_take]
  · rw [if_pos h, List.getD_append_right _ _ _ _ (by simp; omega)]
    have hlen : (C.take (s + 1)).length = s + 1 := by simp; omega
    rw [hlen]
    have hsub : i - (s + 1) < ((C.drop (s + 1)).map (fun c => (c + 1) % 2 ^ wp)).length := by
      simp; omega
    have hidx : s + 1 + (i - (s + 1)) = i := by omega
    rw [List.getD_eq_getElem _ 0 hsub, List.getElem_map, List.getElem_drop,
      ← List.getD_eq_getElem C 0 (by omega), hidx]

theorem scaleAux_length (wp prev : ℕ) (C : List ℕ) :
    (scaleAux wp prev C).length = C.length := by
  induction C generalizing prev with
  | nil => rfl
  | cons c rest ih => simp [scaleAux, ih]

theorem scaleSpecAux_length (prev : ℕ) (C : List ℕ) :
    (scaleSpecAux prev C).length = C.length := by
  induction C generalizing prev with
  | nil => rfl
  | cons c rest ih => simp [scaleSpecAux, ih]

theorem scaleModel_length (wp : ℕ) (C : List ℕ) :
    (scaleModel wp C).length = C.length := by
  cases C with
  | nil => rfl
  | cons c0 rest => simp [scaleModel, scaleAux_length]

/-- The specification's rescale pass makes the tail strictly increase above
`prev`, unconditionally. -/
theorem scaleSpecAux_chain (prev : ℕ) (C : List ℕ) :
    List.Chain' (· < ·) (prev :: scaleSpecAux prev C) := by
  induction C generalizing prev with
  | nil => exact List.chain'_singleton prev
  | cons c rest ih =>
    simp only [scaleSpecAux]
    rw [List.chain'_cons]
    exact ⟨by split <;> omega, ih _⟩

/-- Pointwise bound for the specification's rescale pass: with all entries
bounded by `M`, output `i` is at most `max prev (M / 2) + 1 + i`. -/
theorem scaleSpecAux_getD_le (M : ℕ) (C : List ℕ) (prev i : ℕ)
    (hM : ∀ c ∈ C, c ≤ M) (hi : i < C.length) :
    (scaleSpecAux prev C).getD i 0 ≤ max prev (M / 2) + 1 + i := by
  induction C generalizing prev i with
  | nil => simp at hi
  | cons c rest ih =>
    have hc : c ≤ M := hM c (by simp)
    have hPl : prev ≤ max prev (M / 2) := le_max_left _ _
    have hPr : M / 2 ≤ max prev (M / 2) := le_max_right _ _
    have hcd : c / 2 ≤ M / 2 := Nat.div_le_div_right hc
    cases i with
    | zero =>
      simp only [scaleSpecAux, List.getD_cons_zero]
      split <;> omega
    | succ j =>
      simp only [scaleSpecAux, List.getD_cons_succ]
      simp only [List.length_cons] at hi
      have hrec := ih (if c / 2 ≤ prev then prev + 1 else c / 2) j
        (fun x hx => hM x (List.mem_cons_of_mem _ hx)) (by omega)
      have hstep : (if c / 2 ≤ prev then prev + 1 else c / 2) ≤ max prev (M / 2) + 1 := by
        split <;> omega
      have hmax : max (if c / 2 ≤ prev then prev + 1 else c / 2) (M / 2) ≤
          max prev (M / 2) + 1 := by
        rcases max_cases (if c / 2 ≤ prev then prev + 1 else c / 2) (M / 2) with
          ⟨he, _⟩ | ⟨he, _⟩ <;> omega
      omega

/-- With no wrap possible, `scale_model`'s tail pass computes exactly the
specification's pass. -/
theorem scaleAux_eq_specAux (wp M : ℕ) (C : List ℕ) (prev : ℕ)
    (hM : ∀ c ∈ C, c ≤ M)
    (hp : prev + C.length + 1 ≤ 2 ^ wp)
    (hMw : M / 2 + C.length + 1 ≤ 2 ^ wp) :
    scaleAux wp prev C = scaleSpecAux prev C := by
  induction C generalizing prev with
  | nil => rfl
  | cons c rest ih =>
    have hc : c ≤ M := hM c (by simp)
    simp only [List.length_cons] at hp hMw
    have hmod : (prev + 1) % 2 ^ wp = prev + 1 := Nat.mod_eq_of_lt (by omega)
    have hM' : ∀ x ∈ rest, x ≤ M := fun x hx => hM x (List.mem_cons_of_mem _ hx)
    have hcd : c / 2 ≤ M / 2 := Nat.div_le_div_right hc
    by_cases hle : c / 2 ≤ prev
    · simp only [scaleAux, scaleSpecAux, if_pos hle, hmod]
      exact congrArg _ (ih _ hM' (by omega) (by omega))
    · simp only [scaleAux, scaleSpecAux, if_neg hle]
      exact congrArg _ (ih _ hM' (by omega) (by omega))

/-! ## C10: flush always returns false -/

/-- C10: `flush()` returns `false` on every path — with no stream attached,
when already flushed without `force`, and on the successful path that writes
the termination bit and the underflow run.  The returned boolean never
distinguishes success from failure. -/
theorem C10_flush_always_returns_false (wp : ℕ) (st : EncState) (force : Bool) :
    (flushEnc wp st force).2.2 = false := by
  unfold flushEnc
  split
  · rfl
  · split <;> rfl

/-! ## C9: flush idempotence -/

/-- C9: once `flush()` has run with a stream attached, a further
`flush(force = false)` writes nothing to the bit sink, leaves the encoder
state unchanged, and returns `false`; so calling flush twice is observably
equivalent to calling it once. -/
theorem C9_flush_idempotent (wp : ℕ) (st : EncState) (force₁ : Bool)
    (h : st.hasStream = true) :
    flushEnc wp (flushEnc wp st force₁).1 false = ((flushEnc wp st force₁).1, [], false) := by
  cases hfl : st.flushed <;> cases force₁ <;> simp [flushEnc, h, hfl]

/-- Witness for C9 at a concrete state. -/
theorem C9_flush_idempotent_witness :
    flushEnc 12 (flushEnc 12 (initEnc 12 257) false).1 false =
      ((flushEnc 12 (initEnc 12 257) false).1, [], false) :=
  C9_flush_idempotent 12 (initEnc 12 257) false rfl

theorem range_chain (n : ℕ) : List.Chain' (· < ·) (List.range n) := by
  rw [chain'_lt_iff_getD]
  intro i hi
  simp only [List.length_range] at hi
  rw [List.getD_eq_getElem _ 0 (by simp; omega), List.getD_eq_getElem _ 0 (by simp; omega)]
  simp

theorem updateModel_chain (wp s : ℕ) (C : List ℕ) (hC : C.Chain' (· < ·))
    (hb : ∀ c ∈ C, c + 1 < 2 ^ wp) : (updateModel wp s C).Chain' (· < ·) := by
  rw [chain'_lt_iff_getD] at hC ⊢
  intro i hi
  rw [updateModel_length] at hi
  have hmem : ∀ j, j < C.length → C.getD j 0 + 1 < 2 ^ wp := by
    intro j hj
    refine hb _ ?_
    rw [List.getD_eq_getElem _ 0 hj]
    exact List.getElem_mem _
  rw [updateModel_getD wp s C i (by omega), updateModel_getD wp s C (i + 1) (by omega)]
  have hlt := hC i hi
  rcases Nat.lt_or_ge i (s + 1) with h1 | h1
  · rcases Nat.lt_or_ge (i + 1) (s + 1) with h2 | h2
    · rw [if_neg (by omega), if_neg (by omega)]
      exact hlt
    · rw [if_neg (by omega), if_pos (by omega), Nat.mod_eq_of_lt (hmem _ (by omega))]
      omega
  · rw [if_pos (by omega), if_pos (by omega), Nat.mod_eq_of_lt (hmem _ (by omega)),
      Nat.mod_eq_of_lt (hmem _ (by omega))]
    omega

/-! ## C2: model monotonicity -/

/-- C2 counterexample: the decoder's `expand`, applied right after `init`
with alphabet size 1 growing to 2, produces the cumulative table `[0, 1, 0]`,
which is not even non-strictly monotone: the claim's "after every `expand`"
fails on the decoder's model. -/
theorem C2_counterexample :
    (decExpand (initDec 2 1 []) 2).map DecState.probability = some [0, 1, 0] ∧
    ¬ List.Chain' (· ≤ ·) [0, 1, 0] := by
  constructor
  · decide
  · simp [List.chain'_cons]

/-- C2 (amended): after `init` and after every adaptive update and rescale
the cumulative table is strictly increasing (hence `C[i] ≤ C[i+1]`, strictly
for every slice); `expand` does not in general preserve monotonicity, for
either fill rule (see the counterexample).  The bounds assumptions express
that the entries fit their `P`-typed counters with room for the operations
performed, which the coder's rescale ceiling guarantees in context. -/
theorem C2_model_monotonicity (wp n s : ℕ) (C : List ℕ)
    (hC : C.Chain' (· < ·))
    (hC0 : C.getD 0 0 = 0)
    (hb : ∀ c ∈ C, c + 1 < 2 ^ wp)
    (hlen : C.length ≤ 2 ^ (wp - 2))
    (hw : 2 ≤ wp) :
    List.Chain' (· < ·) (List.range (n + 1)) ∧
    List.Chain' (· < ·) (updateModel wp s C) ∧
    List.Chain' (· < ·) (scaleModel wp C) := by
  refine ⟨range_chain (n + 1), updateModel_chain wp s C hC hb, ?_⟩
  cases C with
  | nil => exact List.chain'_nil
  | cons c0 rest =>
    have hc0 : c0 = 0 := by simpa using hC0
    subst hc0
    have hM : ∀ x ∈ rest, x ≤ 2 ^ wp - 2 := by
      intro x hx
      have := hb x (List.mem_cons_of_mem _ hx)
      omega
    have hp22 : 2 ^ (wp - 2) + 2 ^ (wp - 2) ≤ 2 ^ wp := by
      have h1 : 2 ^ (wp - 2) * 2 ≤ 2 ^ (wp - 1) := by
        rw [← Nat.pow_succ]
        exact Nat.pow_le_pow_right (by norm_num) (by omega)
      have h2 : 2 ^ (wp - 1) * 2 ≤ 2 ^ wp := by
        rw [← Nat.pow_succ]
        exact Nat.pow_le_pow_right (by norm_num) (by omega)
      omega
    have hdiv : (2 ^ wp - 2) / 2 = 2 ^ (wp - 1) - 1 := by
      have h2 : 2 ^ wp = 2 ^ (wp - 1) * 2 := by
        rw [← Nat.pow_succ]
        congr 1
        omega
      omega
    have hhalf : 2 ^ (wp - 2) ≤ 2 ^ (wp - 1) := Nat.pow_le_pow_right (by norm_num) (by omega)
    have hw1 : 2 ^ (wp - 1) + 2 ^ (wp - 1) ≤ 2 ^ wp := by
      have h2 : 2 ^ wp = 2 ^ (wp - 1) * 2 := by
        rw [← Nat.pow_succ]
        congr 1
        omega
      omega
    simp only [List.length_cons] at hlen
    have heq : scaleAux wp 0 rest = scaleSpecAux 0 rest := by
      refine scaleAux_eq_specAux wp (2 ^ wp - 2) rest 0 hM (by omega) ?_
      rw [hdiv]
      have hpos : 1 ≤ 2 ^ (wp - 2) := Nat.one_le_two_pow
      omega
    show List.Chain' (· < ·) (0 :: scaleAux wp 0 rest)
    rw [heq]
    exact scaleSpecAux_chain 0 rest

/-- Witness for C2 (amended) at a concrete table. -/
theorem C2_model_monotonicity_witness :
    List.Chain' (· < ·) (List.range (2 + 1)) ∧
    List.Chain' (· < ·) (updateModel 12 0 [0, 1, 2]) ∧
    List.Chain' (· < ·) (scaleModel 12 [0, 1, 2]) :=
  C2_model_monotonicity 12 2 0 [0, 1, 2] (by simp [List.chain'_cons]) (by decide)
    (by decide) (by decide) (by decide)

/-! ## C3: rescale correctness -/

/-- C3 counterexample: `scale_model` on the strictly increasing cumulative
table `[0, 32768]` (with `WP = 16`, so `MAX_TOTAL = 2^14 - 1 = 16383`)
leaves the total at `16384`, which is not strictly below `MAX_TOTAL`: the
claim's unconditional total bound fails. -/
theorem C3_counterexample :
    List.Chain' (· < ·) [0, 32768] ∧ ([0, 32768] : List ℕ).getD 0 0 = 0 ∧
    scaleModel 16 [0, 32768] = [0, 16384] ∧
    ¬ (scaleModel 16 [0, 32768]).getD 1 0 < maxTotal 16 := by
  refine ⟨by simp [List.chain'_cons], by decide, by decide, by decide⟩

/-- C3 (amended): on a strictly increasing cumulative table with `C[0] = 0`,
entries below `2^WP` and — the correction forced by the counterexample —
`C[N] / 2 + N < MAX_TOTAL`, `scale_model` computes exactly the pass stated in
the specification (`prev = C[0]`; for each following entry `curr = C[i] >> 1`,
bumped to `prev + 1` when `curr ≤ prev`), every resulting slice is at least 1,
and the resulting total is strictly below `MAX_TOTAL = 2^(WP-2) - 1`.  (At the
in-program trigger `C[N] = MAX_TOTAL` the corrected bound is exactly the
condition `MAX_TOTAL / 2 + N < MAX_TOTAL` satisfied for all practical `N`.) -/
theorem C3_rescale_correct (wp n : ℕ) (C : List ℕ)
    (hlen : C.length = n + 1)
    (hC : C.Chain' (· < ·))
    (hC0 : C.getD 0 0 = 0)
    (hb : ∀ c ∈ C, c < 2 ^ wp)
    (hT : C.getD n 0 / 2 + n < maxTotal wp)
    (hw : 2 ≤ wp) :
    scaleModel wp C = scaleSpec C ∧
    (∀ i, i + 1 < C.length →
      (scaleModel wp C).getD i 0 < (scaleModel wp C).getD (i + 1) 0) ∧
    (scaleModel wp C).getD n 0 < maxTotal wp := by
  have hNbound : n < 2 ^ (wp - 2) := by
    unfold maxTotal at hT
    omega
  cases C with
  | nil => simp at hlen
  | cons c0 rest =>
    have hc0 : c0 = 0 := by simpa using hC0
    subst hc0
    simp only [List.length_cons] at hlen
    have hrlen : rest.length = n := by omega
    -- every entry of the tail is bounded by the last entry C[n]
    have hMr : ∀ x ∈ rest, x ≤ (0 :: rest).getD n 0 := by
      intro x hx
      rcases List.mem_iff_getElem.mp hx with ⟨j, hj, hxj⟩
      have : (0 :: rest).getD (j + 1) 0 = x := by
        rw [List.getD_cons_succ, List.getD_eq_getElem _ 0 (by omega)]
        exact hxj
      rw [← this]
      exact strict_getD_le hC (by omega) (by simp; omega)
    have hlast_lt : (0 :: rest).getD n 0 < 2 ^ wp := by
      rcases Nat.eq_zero_or_pos n with h0 | hpos
      · subst h0
        simp [Nat.pos_pow_of_pos]
      · have hmem : (0 :: rest).getD n 0 ∈ (0 :: rest) := by
          rw [List.getD_eq_getElem _ 0 (by simp; omega)]
          exact List.getElem_mem _
        exact hb _ hmem
    have hpow_half : 2 ^ (wp - 2) ≤ 2 ^ (wp - 1) := Nat.pow_le_pow_right (by norm_num) (by omega)
    have hpow_dbl : 2 ^ (wp - 1) * 2 = 2 ^ wp := by
      rw [← Nat.pow_succ]
      congr 1
      omega
    have heq : scaleAux wp 0 rest = scaleSpecAux 0 rest := by
      refine scaleAux_eq_specAux wp ((0 :: rest).getD n 0) rest 0 hMr (by omega) ?_
      have : (0 :: rest).getD n 0 / 2 < 2 ^ (wp - 2) := by
        unfold maxTotal at hT
        omega
      omega
    have heqM : scaleModel wp (0 :: rest) = scaleSpec (0 :: rest) := by
      show (0 : ℕ) :: scaleAux wp 0 rest = 0 :: scaleSpecAux 0 rest
      rw [heq]
    have hchain : List.Chain' (· < ·) (scaleModel wp (0 :: rest)) := by
      rw [heqM]
      exact scaleSpecAux_chain 0 rest
    refine ⟨heqM, ?_, ?_⟩
    · intro i hi
      rw [chain'_lt_iff_getD] at hchain
      exact hchain i (by rw [scaleModel_length]; exact hi)
    · rcases Nat.eq_zero_or_pos n with h0 | hpos
      · subst h0
        have hre : rest = [] := List.length_eq_zero.mp (by omega)
        subst hre
        have hz : (scaleModel wp [0]).getD 0 0 = 0 := rfl
        unfold maxTotal at hT ⊢
        omega
      · obtain ⟨k, rfl⟩ := Nat.exists_eq_succ_of_ne_zero (Nat.pos_iff_ne_zero.mp hpos)
        simp only [Nat.succ_eq_add_one] at hT hMr hlast_lt hrlen ⊢
        have hout : (scaleModel wp (0 :: rest)).getD (k + 1) 0 =
            (scaleSpecAux 0 rest).getD k 0 := by
          rw [heqM]
          show ((0 : ℕ) :: scaleSpecAux 0 rest).getD (k + 1) 0 = _
          rw [List.getD_cons_succ]
        rw [hout]
        have hbnd := scaleSpecAux_getD_le ((0 :: rest).getD (k + 1) 0) rest 0 k
          hMr (by omega)
        simp only [Nat.zero_max] at hbnd
        omega

/-- Witness for C3 (amended) at a concrete table (`WP = 16`). -/
theorem C3_rescale_correct_witness :
    scaleModel 16 [0, 5, 9] = scaleSpec [0, 5, 9] ∧
    (∀ i, i + 1 < ([0, 5, 9] : List ℕ).length →
      (scaleModel 16 [0, 5, 9]).getD i 0 < (scaleModel 16 [0, 5, 9]).getD (i + 1) 0) ∧
    (scaleModel 16 [0, 5, 9]).getD 2 0 < maxTotal 16 :=
  C3_rescale_correct 16 2 [0, 5, 9] (by decide) (by simp [List.chain'_cons]) (by decide)
    (by decide) (by decide) (by decide)

/-! ## C4: decoder symbol location -/

/-- The downward scan lands on a slice containing `prob`, provided the table
is strictly increasing, starts at 0, and `prob` is below the entry just above
the starting position. -/
theorem scanDown_spec (C : List ℕ) (p : ℕ) (hC : C.Chain' (· < ·))
    (hC0 : C.getD 0 0 = 0) :
    ∀ start, start + 1 < C.length → p < C.getD (start + 1) 0 →
      C.getD (scanDown C p start) 0 ≤ p ∧
      p < C.getD (scanDown C p start + 1) 0 ∧
      scanDown C p start ≤ start := by
  intro start
  induction start with
  | zero =>
    intro h1 h2
    simp only [scanDown]
    omega
  | succ t ih =>
    intro h1 h2
    simp only [scanDown]
    split
    · rename_i hlt
      have := ih (by omega) hlt
      exact ⟨this.1, this.2.1, by omega⟩
    · rename_i hge
      exact ⟨by omega, h2, le_rfl⟩

/-- C4: on a decoder state satisfying the range invariant over a strictly
increasing cumulative table, `decode_symbol`'s probe is exactly
`p = (((code - low) + 1) * C[N] - 1) / ((high - low) + 1)` as computed by
`get_current_prob`; `p` lies in `[0, C[N])`; and the downward scan returns
the unique `s` with `C[s] <= p < C[s+1]`. -/
theorem C4_decoder_symbol_location (st : DecState)
    (hlen : st.probability.length = st.maxSyms + 1)
    (hC : st.probability.Chain' (· < ·))
    (hC0 : st.probability.getD 0 0 = 0)
    (hlc : st.low ≤ st.code) (hch : st.code ≤ st.high)
    (hT1 : 1 ≤ st.probability.getD st.maxSyms 0)
    (hrange : st.probability.getD st.maxSyms 0 ≤ (st.high - st.low) + 1) :
    getCurrentProb st (st.probability.getD st.maxSyms 0) =
      ((st.high - st.low) + 1,
        ((st.code - st.low + 1) * st.probability.getD st.maxSyms 0 - 1) /
          ((st.high - st.low) + 1)) ∧
    ((st.code - st.low + 1) * st.probability.getD st.maxSyms 0 - 1) /
        ((st.high - st.low) + 1) < st.probability.getD st.maxSyms 0 ∧
    (st.probability.getD
        (scanDown st.probability
          (((st.code - st.low + 1) * st.probability.getD st.maxSyms 0 - 1) /
            ((st.high - st.low) + 1)) (st.maxSyms - 1)) 0 ≤
      ((st.code - st.low + 1) * st.probability.getD st.maxSyms 0 - 1) /
        ((st.high - st.low) + 1) ∧
      ((st.code - st.low + 1) * st.probability.getD st.maxSyms 0 - 1) /
        ((st.high - st.low) + 1) <
      st.probability.getD
        (scanDown st.probability
          (((st.code - st.low + 1) * st.probability.getD st.maxSyms 0 - 1) /
            ((st.high - st.low) + 1)) (st.maxSyms - 1) + 1) 0) ∧
    (∀ s', s' < st.maxSyms →
      st.probability.getD s' 0 ≤
        ((st.code - st.low + 1) * st.probability.getD st.maxSyms 0 - 1) /
          ((st.high - st.low) + 1) →
      ((st.code - st.low + 1) * st.probability.getD st.maxSyms 0 - 1) /
          ((st.high - st.low) + 1) < st.probability.getD (s' + 1) 0 →
      s' = scanDown st.probability
        (((st.code - st.low + 1) * st.probability.getD st.maxSyms 0 - 1) /
          ((st.high - st.low) + 1)) (st.maxSyms - 1)) := by
  set T := st.probability.getD st.maxSyms 0 with hTdef
  set tr := (st.high - st.low) + 1 with htrdef
  set p := ((st.code - st.low + 1) * T - 1) / tr with hpdef
  have htr0 : 0 < tr := by omega
  have hNpos : 1 ≤ st.maxSyms := by
    by_contra hcon
    have h0 : st.maxSyms = 0 := by omega
    rw [hTdef, h0, hC0] at hT1
    omega
  have hpT : p < T := by
    rw [hpdef]
    rw [Nat.div_lt_iff_lt_mul htr0]
    have hc : st.code - st.low + 1 ≤ tr := by omega
    have h1 : (st.code - st.low + 1) * T ≤ tr * T := Nat.mul_le_mul_right T hc
    calc (st.code - st.low + 1) * T - 1 < (st.code - st.low + 1) * T := by
          have : 1 ≤ (st.code - st.low + 1) * T := Nat.mul_pos (by omega) (by omega)
          omega
      _ ≤ tr * T := h1
      _ = T * tr := Nat.mul_comm _ _
  have hscan := scanDown_spec st.probability p hC hC0 (st.maxSyms - 1)
    (by omega) (by
      have : st.maxSyms - 1 + 1 = st.maxSyms := by omega
      rw [this]
      exact hpT)
  refine ⟨rfl, hpT, ⟨hscan.1, hscan.2.1⟩, ?_⟩
  intro s' hs' hlo hhi
  set r := scanDown st.probability p (st.maxSyms - 1) with hrdef
  by_contra hne
  rcases Nat.lt_or_ge s' r with hlt | hge
  · have : st.probability.getD (s' + 1) 0 ≤ st.probability.getD r 0 :=
      strict_getD_le hC (by omega) (by omega)
    omega
  · have hgt : r < s' := by omega
    have : st.probability.getD (r + 1) 0 ≤ st.probability.getD s' 0 :=
      strict_getD_le hC (by omega) (by omega)
    omega

/-- Witness for C4 at a concrete decoder state (`WP = 4`, uniform model on
three symbols, `code = 9`). -/
theorem C4_decoder_symbol_location_witness :
    getCurrentProb
      { high := 15, low := 0, tmpRange := 0, maxSyms := 3, code := 9,
        pos := 0, probability := [0, 1, 2, 3] } 3 = (16, 1) ∧ (1 : ℕ) < 3 ∧
    ((0 : ℕ) ≤ 1 ∧ (1 : ℕ) < 2) ∧ (1 : ℕ) = 1 := by
  have h := C4_decoder_symbol_location
    { high := 15, low := 0, tmpRange := 0, maxSyms := 3, code := 9,
      pos := 0, probability := [0, 1, 2, 3] }
    (by decide) (by simp [List.chain'_cons]) (by decide) (by decide) (by decide)
    (by decide) (by decide)
  refine ⟨?_, by decide, ⟨by decide, by decide⟩, by decide⟩
  exact h.1

/-! ## C5: DecodeCorrupt reporting -/

/-- C5 counterexample: a garbled decoder state (`WP = 4`, `code = 100`, far
above `high`) for which the probe is `p = 12 ≥ C[N] = 2` — claimed to
surface `DecodeCorrupt` — yet `decode_symbol` completes normally and returns
the ordinary top symbol `1 = maxSyms - 1`; `scalable_adc_c` has no error
path at all. -/
theorem C5_counterexample :
    (getCurrentProb
      { high := 15, low := 0, tmpRange := 0, maxSyms := 2, code := 100,
        pos := 0, probability := [0, 1, 2] } 2).2 = 12 ∧
    ([0, 1, 2] : List ℕ).getD 2 0 ≤ 12 ∧
    decodeSymbol 4 []
        { high := 15, low := 0, tmpRange := 0, maxSyms := 2, code := 100,
          pos := 0, probability := [0, 1, 2] } =
      some
        ({ high := 15, low := 0, tmpRange := 16, maxSyms := 2, code := 8,
           pos := 1, probability := [0, 1, 2] }, 1) := by
  refine ⟨by decide, by decide, by decide⟩

/-! ## Renormalisation loop: arithmetic helpers -/

theorem pow_split (wp : ℕ) (hw : 1 ≤ wp) : 2 ^ wp = 2 * 2 ^ (wp - 1) := by
  rw [← Nat.pow_succ']
  congr 1
  omega

theorem pow_split2 (wp : ℕ) (hw : 2 ≤ wp) : 2 ^ (wp - 1) = 2 * 2 ^ (wp - 2) := by
  rw [← Nat.pow_succ']
  congr 1
  omega

theorem mod_dbl_lo {m x : ℕ} (h : x < m) : (2 * x) % (2 * m) = 2 * x :=
  Nat.mod_eq_of_lt (by omega)

theorem mod_dbl_hi {m x : ℕ} (h1 : m ≤ x) (h2 : x < 2 * m) :
    (2 * x) % (2 * m) = 2 * (x - m) := by
  rw [Nat.mod_eq_sub_mod (by omega)]
  have : 2 * x - 2 * m = 2 * (x - m) := by omega
  rw [this]
  exact Nat.mod_eq_of_lt (by omega)

theorem mod_dbl1_lo {m x : ℕ} (h : x < m) : (2 * x + 1) % (2 * m) = 2 * x + 1 :=
  Nat.mod_eq_of_lt (by omega)

theorem mod_dbl1_hi {m x : ℕ} (h1 : m ≤ x) (h2 : x < 2 * m) :
    (2 * x + 1) % (2 * m) = 2 * (x - m) + 1 := by
  rw [Nat.mod_eq_sub_mod (by omega)]
  have : 2 * x + 1 - 2 * m = 2 * (x - m) + 1 := by omega
  rw [this]
  exact Nat.mod_eq_of_lt (by omega)

/-- Top bit of a `wp`-bit value. -/
theorem testBit_top_iff {wp x : ℕ} (hw : 1 ≤ wp) (hx : x < 2 ^ wp) :
    x.testBit (wp - 1) = true ↔ 2 ^ (wp - 1) ≤ x := by
  rw [Nat.testBit_to_div_mod, decide_eq_true_eq]
  have hsplit := pow_split wp hw
  have hPpos : 0 < 2 ^ (wp - 1) := Nat.pos_pow_of_pos _ (by norm_num)
  have hdiv : x / 2 ^ (wp - 1) < 2 := by
    rw [Nat.div_lt_iff_lt_mul hPpos]
    omega
  constructor
  · intro h
    have hne : x / 2 ^ (wp - 1) ≠ 0 := by
      intro h0
      rw [h0] at h
      simp at h
    have h2 := (Nat.le_div_iff_mul_le hPpos).mp (Nat.one_le_iff_ne_zero.mpr hne)
    omega
  · intro h
    have h1 : 1 ≤ x / 2 ^ (wp - 1) := (Nat.le_div_iff_mul_le hPpos).mpr (by omega)
    omega

/-- Second-highest bit of a `wp`-bit value. -/
theorem testBit_sec_iff {wp x : ℕ} (hw : 2 ≤ wp) (hx : x < 2 ^ wp) :
    x.testBit (wp - 2) = true ↔ 2 ^ (wp - 2) ≤ x % 2 ^ (wp - 1) := by
  have h1 : x.testBit (wp - 2) = (x % 2 ^ (wp - 1)).testBit (wp - 2) := by
    rw [Nat.testBit_mod_two_pow]
    have : wp - 2 < wp - 1 := by omega
    simp [this]
  rw [h1]
  have hmod : x % 2 ^ (wp - 1) < 2 ^ (wp - 1) :=
    Nat.mod_lt _ (Nat.pos_pow_of_pos _ (by norm_num))
  have := @testBit_top_iff (wp - 1) (x % 2 ^ (wp - 1)) (by omega) hmod
  have hidx : wp - 1 - 1 = wp - 2 := by omega
  rw [hidx] at this
  exact this

/-- Case-A guard of the renormalisation loops, in interval form. -/
theorem branchA_iff {wp low high : ℕ} (hw : 2 ≤ wp) (hl : low ≤ high)
    (hh : high < 2 ^ wp) :
    (high.testBit (wp - 1) = low.testBit (wp - 1)) ↔
      (high < 2 ^ (wp - 1) ∨ 2 ^ (wp - 1) ≤ low) := by
  have htl := @testBit_top_iff wp low (by omega) (by omega)
  have hth := @testBit_top_iff wp high (by omega) hh
  cases hcl : low.testBit (wp - 1) <;> cases hch : high.testBit (wp - 1) <;>
    simp [hcl, hch] at htl hth ⊢ <;> omega

/-- Case-B guard of the renormalisation loops, in interval form (under the
failure of case A, so `low < 2^(wp-1) ≤ high`). -/
theorem branchB_iff {wp low high : ℕ} (hw : 2 ≤ wp)
    (hlow : low < 2 ^ (wp - 1)) (hhigh : 2 ^ (wp - 1) ≤ high) (hh : high < 2 ^ wp) :
    (low.testBit (wp - 2) && !high.testBit (wp - 2)) = true ↔
      (2 ^ (wp - 2) ≤ low ∧ high < 2 ^ (wp - 1) + 2 ^ (wp - 2)) := by
  have hsl := @testBit_sec_iff wp low hw (by omega)
  have hsh := @testBit_sec_iff wp high hw hh
  have hml : low % 2 ^ (wp - 1) = low := Nat.mod_eq_of_lt hlow
  have hmh : high % 2 ^ (wp - 1) = high - 2 ^ (wp - 1) := by
    rw [Nat.mod_eq_sub_mod hhigh]
    refine Nat.mod_eq_of_lt ?_
    have := pow_split wp (by omega)
    omega
  rw [hml] at hsl
  rw [hmh] at hsh
  cases hcl : low.testBit (wp - 2) <;> cases hch : high.testBit (wp - 2) <;>
    simp [hcl, hch] at hsl hsh ⊢ <;> omega

/-- Termination, iteration bound and exit conditions of the encoder
renormalisation loop: on `low ≤ high < 2^wp` with enough fuel for the width
to double past `2^(wp-1)`, the loop exits, having done at most `fuel`
iterations, in a state where both guards fail. -/
theorem encRenorm_run (wp : ℕ) (sim : Bool) (hw : 2 ≤ wp) :
    ∀ fuel low high uc, low ≤ high → high < 2 ^ wp →
      2 ^ (wp - 1) < (high - low + 1) * 2 ^ fuel →
      ∃ r, encRenorm wp sim (fuel + 1) low high uc = some r ∧
        r.iters ≤ fuel ∧ r.low ≤ r.high ∧ r.high < 2 ^ wp ∧
        ¬(r.high.testBit (wp - 1) = r.low.testBit (wp - 1)) ∧
        (r.low.testBit (wp - 2) && !r.high.testBit (wp - 2)) = false := by
  intro fuel
  induction fuel with
  | zero =>
    intro low high uc hlh hh hm
    simp only [pow_zero, mul_one] at hm
    have hp := pow_split wp (by omega)
    have hp2 := pow_split2 wp hw
    have hA : ¬(high.testBit (wp - 1) = low.testBit (wp - 1)) := by
      rw [branchA_iff hw hlh hh]
      push_neg
      constructor <;> omega
    have hnotA := (not_iff_not.mpr (branchA_iff hw hlh hh)).mp hA
    push_neg at hnotA
    have hB : (low.testBit (wp - 2) && !high.testBit (wp - 2)) = false := by
      rw [← Bool.not_eq_true, branchB_iff hw (by omega) (by omega) hh]
      push_neg
      intro h1
      omega
    refine ⟨⟨low, high, uc, [], 0, 0⟩, ?_, le_rfl, hlh, hh, hA, hB⟩
    rw [encRenorm.eq_2, if_neg hA, if_neg (by simp [hB])]
  | succ f ih =>
    intro low high uc hlh hh hm
    have hp := pow_split wp (by omega)
    have hp2 := pow_split2 wp hw
    by_cases hA : high.testBit (wp - 1) = low.testBit (wp - 1)
    · -- Case A: the shared top bit is shifted out
      have hcase := (branchA_iff hw hlh hh).mp hA
      have hkey : ∃ low' high', (2 * low) % 2 ^ wp = low' ∧
          (2 * high + 1) % 2 ^ wp = high' ∧
          high' - low' = 2 * (high - low) + 1 ∧ low' ≤ high' ∧ high' < 2 ^ wp := by
        rcases hcase with hlo | hhi
        · refine ⟨2 * low, 2 * high + 1, ?_, ?_, by omega, by omega, by omega⟩
          · rw [hp]
            exact mod_dbl_lo (by omega)
          · rw [hp]
            exact mod_dbl1_lo hlo
        · refine ⟨2 * (low - 2 ^ (wp - 1)), 2 * (high - 2 ^ (wp - 1)) + 1,
            ?_, ?_, by omega, by omega, by omega⟩
          · rw [hp]
            exact mod_dbl_hi hhi (by omega)
          · rw [hp]
            exact mod_dbl1_hi (by omega) (by omega)
      obtain ⟨low', high', he1, he2, hdiff, hlh', hh'⟩ := hkey
      obtain ⟨r, hr, hi1, hi2, hi3, hi4, hi5⟩ := ih low' high' 0 hlh' hh' (by
        have h2 : high' - low' + 1 = 2 * (high - low + 1) := by omega
        calc 2 ^ (wp - 1) < (high - low + 1) * 2 ^ (f + 1) := hm
          _ = (high' - low' + 1) * 2 ^ f := by rw [h2, pow_succ]; ring)
      refine ⟨⟨r.low, r.high, r.uc,
        (if sim then [] else
          decide (high / 2 ^ (wp - 1) % 2 = 1) ::
            List.replicate uc (decide ((high / 2 ^ (wp - 1) ^^^ 1) ≠ 0))) ++ r.bits,
        uc + 1 + r.cost, r.iters + 1⟩, ?_, Nat.succ_le_succ hi1, hi2, hi3, hi4, hi5⟩
      rw [encRenorm.eq_2, if_pos hA, he1, he2, hr]
    · by_cases hB : (low.testBit (wp - 2) && !high.testBit (wp - 2)) = true
      · -- Case B: pending underflow
        have hnotA := (not_iff_not.mpr (branchA_iff hw hlh hh)).mp hA
        push_neg at hnotA
        obtain ⟨hhige, hlowlt⟩ := hnotA
        have hcase := (branchB_iff hw hlowlt hhige hh).mp hB
        obtain ⟨hBl, hBh⟩ := hcase
        have he0 : low % 2 ^ (wp - 2) = low - 2 ^ (wp - 2) := by
          rw [Nat.mod_eq_sub_mod hBl]
          exact Nat.mod_eq_of_lt (by omega)
        have he1 : (2 * (low % 2 ^ (wp - 2))) % 2 ^ wp = 2 * (low - 2 ^ (wp - 2)) := by
          rw [he0, hp]
          exact mod_dbl_lo (by omega)
        have he2 : (2 * (high + 2 ^ (wp - 2)) + 1) % 2 ^ wp =
            2 * (high - 2 ^ (wp - 2)) + 1 := by
          rw [hp]
          have := mod_dbl1_hi (m := 2 ^ (wp - 1)) (x := high + 2 ^ (wp - 2))
            (by omega) (by omega)
          rw [this]
          congr 2
          omega
        obtain ⟨r, hr, hi1, hi2, hi3, hi4, hi5⟩ := ih (2 * (low - 2 ^ (wp - 2)))
          (2 * (high - 2 ^ (wp - 2)) + 1) (uc + 1) (by omega) (by omega) (by
            have h2 : 2 * (high - 2 ^ (wp - 2)) + 1 - 2 * (low - 2 ^ (wp - 2)) + 1 =
                2 * (high - low + 1) := by omega
            calc 2 ^ (wp - 1) < (high - low + 1) * 2 ^ (f + 1) := hm
              _ = (2 * (high - 2 ^ (wp - 2)) + 1 - 2 * (low - 2 ^ (wp - 2)) + 1) * 2 ^ f := by
                  rw [h2, pow_succ]; ring)
        refine ⟨⟨r.low, r.high, r.uc, r.bits, r.cost, r.iters + 1⟩, ?_,
          Nat.succ_le_succ hi1, hi2, hi3, hi4, hi5⟩
        rw [encRenorm.eq_2, if_neg hA, if_pos hB, he1, he2, hr]
      · have hBf : (low.testBit (wp - 2) && !high.testBit (wp - 2)) = false := by
          simpa using hB
        refine ⟨⟨low, high, uc, [], 0, 0⟩, ?_, Nat.zero_le _, hlh, hh, hA, hBf⟩
        rw [encRenorm.eq_2, if_neg hA, if_neg (by simp [hBf])]

/-- Termination, iteration bound, exit conditions and read-cursor accounting
of the decoder renormalisation loop (`remove_range`), mirroring
`encRenorm_run`; the loop conditions depend only on `low` and `high`. -/
theorem decRenorm_run (wp : ℕ) (S : List Bool) (hw : 2 ≤ wp) :
    ∀ fuel low high code pos, low ≤ high → high < 2 ^ wp →
      2 ^ (wp - 1) < (high - low + 1) * 2 ^ fuel →
      ∃ l h c p i, decRenorm wp S (fuel + 1) low high code pos = some (l, h, c, p, i) ∧
        i ≤ fuel ∧ p = pos + i ∧ l ≤ h ∧ h < 2 ^ wp ∧
        ¬(h.testBit (wp - 1) = l.testBit (wp - 1)) ∧
        (l.testBit (wp - 2) && !h.testBit (wp - 2)) = false := by
  intro fuel
  induction fuel with
  | zero =>
    intro low high code pos hlh hh hm
    simp only [pow_zero, mul_one] at hm
    have hp := pow_split wp (by omega)
    have hp2 := pow_split2 wp hw
    have hA : ¬(high.testBit (wp - 1) = low.testBit (wp - 1)) := by
      rw [branchA_iff hw hlh hh]
      push_neg
      constructor <;> omega
    have hB : (low.testBit (wp - 2) && !high.testBit (wp - 2)) = false := by
      have hnotA := (not_iff_not.mpr (branchA_iff hw hlh hh)).mp hA
      push_neg at hnotA
      rw [← Bool.not_eq_true, branchB_iff hw (by omega) (by omega) hh]
      push_neg
      intro h1
      omega
    refine ⟨low, high, code, pos, 0, ?_, le_rfl, by omega, hlh, hh, hA, hB⟩
    rw [decRenorm.eq_2, if_neg hA, if_neg (by simp [hB])]
  | succ f ih =>
    intro low high code pos hlh hh hm
    have hp := pow_split wp (by omega)
    have hp2 := pow_split2 wp hw
    by_cases hA : high.testBit (wp - 1) = low.testBit (wp - 1)
    · have hcase := (branchA_iff hw hlh hh).mp hA
      have hkey : ∃ low' high', (2 * low) % 2 ^ wp = low' ∧
          (2 * high + 1) % 2 ^ wp = high' ∧
          high' - low' = 2 * (high - low) + 1 ∧ low' ≤ high' ∧ high' < 2 ^ wp := by
        rcases hcase with hlo | hhi
        · refine ⟨2 * low, 2 * high + 1, ?_, ?_, by omega, by omega, by omega⟩
          · rw [hp]
            exact mod_dbl_lo (by omega)
          · rw [hp]
            exact mod_dbl1_lo hlo
        · refine ⟨2 * (low - 2 ^ (wp - 1)), 2 * (high - 2 ^ (wp - 1)) + 1,
            ?_, ?_, by omega, by omega, by omega⟩
          · rw [hp]
            exact mod_dbl_hi hhi (by omega)
          · rw [hp]
            exact mod_dbl1_hi (by omega) (by omega)
      obtain ⟨low', high', he1, he2, hdiff, hlh', hh'⟩ := hkey
      obtain ⟨l, h, c, p, i, hr, hi1, hip, hi2, hi3, hi4, hi5⟩ := ih low' high'
        ((2 * code + (S.getD pos false).toNat) % 2 ^ wp) (pos + 1) hlh' hh' (by
          have h2 : high' - low' + 1 = 2 * (high - low + 1) := by omega
          calc 2 ^ (wp - 1) < (high - low + 1) * 2 ^ (f + 1) := hm
            _ = (high' - low' + 1) * 2 ^ f := by rw [h2, pow_succ]; ring)
      refine ⟨l, h, c, p, i + 1, ?_, by omega, by omega, hi2, hi3, hi4, hi5⟩
      rw [decRenorm.eq_2, if_pos hA, he1, he2, hr]
    · by_cases hB : (low.testBit (wp - 2) && !high.testBit (wp - 2)) = true
      · have hnotA := (not_iff_not.mpr (branchA_iff hw hlh hh)).mp hA
        push_neg at hnotA
        obtain ⟨hhige, hlowlt⟩ := hnotA
        obtain ⟨hBl, hBh⟩ := (branchB_iff hw hlowlt hhige hh).mp hB
        have he0 : low % 2 ^ (wp - 2) = low - 2 ^ (wp - 2) := by
          rw [Nat.mod_eq_sub_mod hBl]
          exact Nat.mod_eq_of_lt (by omega)
        have he1 : (2 * (low % 2 ^ (wp - 2))) % 2 ^ wp = 2 * (low - 2 ^ (wp - 2)) := by
          rw [he0, hp]
          exact mod_dbl_lo (by omega)
        have he2 : (2 * (high + 2 ^ (wp - 2)) + 1) % 2 ^ wp =
            2 * (high - 2 ^ (wp - 2)) + 1 := by
          rw [hp]
          have := mod_dbl1_hi (m := 2 ^ (wp - 1)) (x := high + 2 ^ (wp - 2))
            (by omega) (by omega)
          rw [this]
          congr 2
          omega
        obtain ⟨l, h, c, p, i, hr, hi1, hip, hi2, hi3, hi4, hi5⟩ := ih
          (2 * (low - 2 ^ (wp - 2))) (2 * (high - 2 ^ (wp - 2)) + 1)
          ((2 * (if code.testBit (wp - 2) then code - 2 ^ (wp - 2)
              else code + 2 ^ (wp - 2)) + (S.getD pos false).toNat) % 2 ^ wp)
          (pos + 1) (by omega) (by omega) (by
            have h2 : 2 * (high - 2 ^ (wp - 2)) + 1 - 2 * (low - 2 ^ (wp - 2)) + 1 =
                2 * (high - low + 1) := by omega
            calc 2 ^ (wp - 1) < (high - low + 1) * 2 ^ (f + 1) := hm
              _ = (2 * (high - 2 ^ (wp - 2)) + 1 - 2 * (low - 2 ^ (wp - 2)) + 1) * 2 ^ f := by
                  rw [h2, pow_succ]; ring)
        refine ⟨l, h, c, p, i + 1, ?_, by omega, by omega, hi2, hi3, hi4, hi5⟩
        rw [decRenorm.eq_2, if_neg hA, if_pos hB, he1, he2, hr]
      · have hBf : (low.testBit (wp - 2) && !high.testBit (wp - 2)) = false := by
          simpa using hB
        refine ⟨low, high, code, pos, 0, ?_, Nat.zero_le _, by omega, hlh, hh, hA, hBf⟩
        rw [decRenorm.eq_2, if_neg hA, if_neg (by simp [hBf])]

/-- At loop exit the range is wider than a quarter of the word. -/
theorem exit_width {wp low high : ℕ} (hw : 2 ≤ wp) (hlh : low ≤ high)
    (hh : high < 2 ^ wp)
    (hA : ¬(high.testBit (wp - 1) = low.testBit (wp - 1)))
    (hB : (low.testBit (wp - 2) && !high.testBit (wp - 2)) = false) :
    low < 2 ^ (wp - 1) ∧ 2 ^ (wp - 1) ≤ high ∧ 2 ^ (wp - 2) < high - low := by
  have hnotA := (not_iff_not.mpr (branchA_iff hw hlh hh)).mp hA
  push_neg at hnotA
  obtain ⟨hhige, hlowlt⟩ := hnotA
  have hnB : ¬(2 ^ (wp - 2) ≤ low ∧ high < 2 ^ (wp - 1) + 2 ^ (wp - 2)) := by
    rw [← branchB_iff hw hlowlt hhige hh]
    simp [hB]
  push_neg at hnB
  have hp2 := pow_split2 wp hw
  rcases Nat.lt_or_ge low (2 ^ (wp - 2)) with hcase | hcase
  · exact ⟨hlowlt, hhige, by omega⟩
  · have := hnB hcase
    exact ⟨hlowlt, hhige, by omega⟩

/-- The range narrowing step sends a valid range and symbol slice to a
non-empty subrange. -/
theorem narrow_bounds {tr T cl ch low high : ℕ}
    (htr : tr = high - low + 1) (hlh : low ≤ high)
    (hcl : cl < ch) (hch : ch ≤ T) (hT : 1 ≤ T) (hrange : T ≤ tr) :
    low ≤ low + tr * cl / T ∧
    low + tr * cl / T ≤ low + tr * ch / T - 1 ∧
    low + tr * ch / T - 1 ≤ high := by
  have h1 : tr * cl / T < tr * ch / T := by
    have hstep : tr * cl + T ≤ tr * ch := by
      have h := Nat.mul_le_mul_left tr (show cl + 1 ≤ ch by omega)
      rw [Nat.mul_succ] at h
      omega
    calc tr * cl / T < tr * cl / T + 1 := Nat.lt_succ_self _
      _ = (tr * cl + T) / T := (Nat.add_div_right _ (by omega)).symm
      _ ≤ tr * ch / T := Nat.div_le_div_right hstep
  have h2 : tr * ch / T ≤ tr := by
    have hle : tr * ch ≤ tr * T := Nat.mul_le_mul_left tr hch
    calc tr * ch / T ≤ tr * T / T := Nat.div_le_div_right hle
      _ = tr := Nat.mul_div_cancel tr (by omega)
  set A := tr * cl / T with hAdef
  set B := tr * ch / T with hBdef
  clear_value A B
  refine ⟨by omega, by omega, by omega⟩

/-! ## C8: renormalisation progress -/

/-- C8: for every encoder state and decoder state satisfying the range
invariant (`low < high ≤ RANGE_MASK` and `(high - low) + 1 ≥ C[N] ≥ 1`) over
a strictly increasing model, and every symbol `s < N`, the renormalisation
loop inside `range_code` and the one inside `remove_range` — entered on the
narrowed range and run here with fuel `WP + 1` — terminate after at most `WP`
iterations. -/
theorem C8_renorm_progress (wp : ℕ) (st : EncState) (dst : DecState) (s t : ℕ)
    (hw : 2 ≤ wp)
    (hlh : st.low < st.high) (hh : st.high ≤ 2 ^ wp - 1)
    (hC : st.probability.Chain' (· < ·))
    (hlen : st.probability.length = st.maxSyms + 1)
    (hs : s < st.maxSyms)
    (hT1 : 1 ≤ st.probability.getD st.maxSyms 0)
    (hrange : st.probability.getD st.maxSyms 0 ≤ (st.high - st.low) + 1)
    (hdlh : dst.low < dst.high) (hdh : dst.high ≤ 2 ^ wp - 1)
    (hdC : dst.probability.Chain' (· < ·))
    (hdlen : dst.probability.length = dst.maxSyms + 1)
    (ht : t < dst.maxSyms)
    (hdT1 : 1 ≤ dst.probability.getD dst.maxSyms 0)
    (hdrange : dst.probability.getD dst.maxSyms 0 ≤ (dst.high - dst.low) + 1) :
    (∃ r, encRenorm wp false (wp + 1)
        (st.low + ((st.high - st.low) + 1) * st.probability.getD s 0 /
          st.probability.getD st.maxSyms 0)
        (st.low + ((st.high - st.low) + 1) * st.probability.getD (s + 1) 0 /
          st.probability.getD st.maxSyms 0 - 1)
        st.underflowCount = some r ∧ r.iters ≤ wp) ∧
    (∃ l h c p i, decRenorm wp (([] : List Bool)) (wp + 1)
        (dst.low + ((dst.high - dst.low) + 1) * dst.probability.getD t 0 /
          dst.probability.getD dst.maxSyms 0)
        (dst.low + ((dst.high - dst.low) + 1) * dst.probability.getD (t + 1) 0 /
          dst.probability.getD dst.maxSyms 0 - 1)
        dst.code dst.pos = some (l, h, c, p, i) ∧ i ≤ wp) := by
  constructor
  · have hnb := @narrow_bounds ((st.high - st.low) + 1)
      (st.probability.getD st.maxSyms 0)
      (st.probability.getD s 0) (st.probability.getD (s + 1) 0)
      st.low st.high rfl (by omega)
      (strict_getD_lt hC (by omega) (by omega))
      (strict_getD_le hC (by omega) (by omega)) hT1 hrange
    obtain ⟨r, hr, hit, _⟩ := encRenorm_run wp false hw wp _ _ st.underflowCount
      hnb.2.1 (lt_of_le_of_lt hnb.2.2 (by omega)) (by
        have h1 : 1 ≤ (st.low + ((st.high - st.low) + 1) * st.probability.getD (s + 1) 0 /
            st.probability.getD st.maxSyms 0 - 1) -
            (st.low + ((st.high - st.low) + 1) * st.probability.getD s 0 /
              st.probability.getD st.maxSyms 0) + 1 := by omega
        have h2 : 2 ^ (wp - 1) < 2 ^ wp := Nat.pow_lt_pow_right (by norm_num) (by omega)
        calc 2 ^ (wp - 1) < 2 ^ wp := h2
          _ = 1 * 2 ^ wp := (Nat.one_mul _).symm
          _ ≤ _ := Nat.mul_le_mul_right _ h1)
    exact ⟨r, hr, hit⟩
  · have hnb := @narrow_bounds ((dst.high - dst.low) + 1)
      (dst.probability.getD dst.maxSyms 0)
      (dst.probability.getD t 0) (dst.probability.getD (t + 1) 0)
      dst.low dst.high rfl (by omega)
      (strict_getD_lt hdC (by omega) (by omega))
      (strict_getD_le hdC (by omega) (by omega)) hdT1 hdrange
    obtain ⟨l, h, c, p, i, hr, hit, _⟩ := decRenorm_run wp [] hw wp _ _ dst.code dst.pos
      hnb.2.1 (lt_of_le_of_lt hnb.2.2 (by omega)) (by
        have h1 : 1 ≤ (dst.low + ((dst.high - dst.low) + 1) * dst.probability.getD (t + 1) 0 /
            dst.probability.getD dst.maxSyms 0 - 1) -
            (dst.low + ((dst.high - dst.low) + 1) * dst.probability.getD t 0 /
              dst.probability.getD dst.maxSyms 0) + 1 := by omega
        have h2 : 2 ^ (wp - 1) < 2 ^ wp := Nat.pow_lt_pow_right (by norm_num) (by omega)
        calc 2 ^ (wp - 1) < 2 ^ wp := h2
          _ = 1 * 2 ^ wp := (Nat.one_mul _).symm
          _ ≤ _ := Nat.mul_le_mul_right _ h1)
    exact ⟨l, h, c, p, i, hr, hit⟩

/-- Witness for C8 on concrete encoder and decoder states (`WP = 4`). -/
theorem C8_renorm_progress_witness :
    (∃ r, encRenorm 4 false 5 (0 + 16 * 0 / 3) (0 + 16 * 1 / 3 - 1) 0 = some r ∧
      r.iters ≤ 4) ∧
    (∃ l h c p i, decRenorm 4 ([] : List Bool) 5 (0 + 16 * 0 / 3) (0 + 16 * 1 / 3 - 1)
        0 0 = some (l, h, c, p, i) ∧ i ≤ 4) := by
  have h := C8_renorm_progress 4
    { high := 15, low := 0, underflowCount := 0, tmpRange := 0, maxSyms := 3,
      probability := [0, 1, 2, 3], flushed := false, hasStream := true }
    { high := 15, low := 0, tmpRange := 0, maxSyms := 3, code := 0, pos := 0,
      probability := [0, 1, 2, 3] } 0 0
    (by decide) (by decide) (by decide) (by simp [List.chain'_cons]) (by decide)
    (by decide) (by decide) (by decide)
    (by decide) (by decide) (by simp [List.chain'_cons]) (by decide) (by decide)
    (by decide) (by decide)
  exact h

/-! ## C6: cost estimation agreement -/

/-- Simulate mode runs the renormalisation loop through exactly the same
state changes, emits nothing, and accumulates the same cost. -/
theorem encRenorm_sim_eq (wp : ℕ) :
    ∀ fuel low high uc,
      encRenorm wp true fuel low high uc =
        (encRenorm wp false fuel low high uc).map
          (fun r => ⟨r.low, r.high, r.uc, [], r.cost, r.iters⟩) := by
  intro fuel
  induction fuel with
  | zero => intro low high uc; rfl
  | succ f ih =>
    intro low high uc
    rw [encRenorm.eq_2, encRenorm.eq_2]
    by_cases hA : high.testBit (wp - 1) = low.testBit (wp - 1)
    · rw [if_pos hA, if_pos hA, ih]
      cases hrec : encRenorm wp false f ((2 * low) % 2 ^ wp) ((2 * high + 1) % 2 ^ wp) 0 with
      | none => rfl
      | some r => simp
    · rw [if_neg hA, if_neg hA]
      by_cases hB : (low.testBit (wp - 2) && !high.testBit (wp - 2)) = true
      · rw [if_pos hB, if_pos hB, ih]
        cases hrec : encRenorm wp false f ((2 * (low % 2 ^ (wp - 2))) % 2 ^ wp)
            ((2 * (high + 2 ^ (wp - 2)) + 1) % 2 ^ wp) (uc + 1) with
        | none => rfl
        | some r => simp
      · rw [if_neg hB, if_neg hB]
        rfl

/-- In real (non-simulate) mode, the accumulated cost of the loop equals the
number of bits emitted. -/
theorem encRenorm_cost_len (wp : ℕ) :
    ∀ fuel low high uc r, encRenorm wp false fuel low high uc = some r →
      r.cost = r.bits.length := by
  intro fuel
  induction fuel with
  | zero => intro low high uc r h; exact absurd h (by simp [encRenorm])
  | succ f ih =>
    intro low high uc r h
    rw [encRenorm.eq_2] at h
    by_cases hA : high.testBit (wp - 1) = low.testBit (wp - 1)
    · rw [if_pos hA] at h
      cases hrec : encRenorm wp false f ((2 * low) % 2 ^ wp) ((2 * high + 1) % 2 ^ wp) 0 with
      | none => rw [hrec] at h; exact absurd h (by simp)
      | some r' =>
        rw [hrec] at h
        have hr' := ih _ _ _ _ hrec
        simp only [Option.some_inj] at h
        subst h
        simp [hr', List.length_replicate]
        omega
    · rw [if_neg hA] at h
      by_cases hB : (low.testBit (wp - 2) && !high.testBit (wp - 2)) = true
      · rw [if_pos hB] at h
        cases hrec : encRenorm wp false f ((2 * (low % 2 ^ (wp - 2))) % 2 ^ wp)
            ((2 * (high + 2 ^ (wp - 2)) + 1) % 2 ^ wp) (uc + 1) with
        | none => rw [hrec] at h; exact absurd h (by simp)
        | some r' =>
          rw [hrec] at h
          have hr' := ih _ _ _ _ hrec
          simp only [Option.some_inj] at h
          subst h
          simpa using hr'
      · rw [if_neg hB] at h
        simp only [Option.some_inj] at h
        subst h
        rfl

/-- C6: from any encoder state, `estimate_cost(s)` succeeds exactly when
`encode_symbol(s)` does, yields the very same encoder state (range,
underflow counter and model included), writes nothing to the sink, and
returns exactly the number of bits that the real `encode_symbol(s)` wrote
from that same state. -/
theorem C6_cost_estimation_agreement (wp : ℕ) (st : EncState) (s : ℕ)
    (st' : EncState) (bits : List Bool)
    (h : encodeSymbol wp st s = some (st', bits)) :
    estimateCost wp st s = some (st', bits.length, []) := by
  unfold encodeSymbol at h
  unfold estimateCost rangeCode
  unfold rangeCode at h
  simp only [] at h ⊢
  rw [encRenorm_sim_eq]
  cases hrec : encRenorm wp false (wp + 1)
      (st.low + ((st.high - st.low) + 1) * st.probability.getD s 0 /
        st.probability.getD st.maxSyms 0)
      (st.low + ((st.high - st.low) + 1) * st.probability.getD (s + 1) 0 /
        st.probability.getD st.maxSyms 0 - 1) st.underflowCount with
  | none => rw [hrec] at h; exact absurd h (by simp)
  | some r =>
    rw [hrec] at h
    simp only [Option.map_some', Option.some_inj] at h ⊢
    have hcost := encRenorm_cost_len wp _ _ _ _ _ hrec
    obtain ⟨h1, h2⟩ := Prod.mk.injEq .. ▸ h
    refine Prod.ext ?_ (Prod.ext ?_ ?_)
    · simpa using h1
    · simp only [← h2, hcost]
    · rfl

set_option maxRecDepth 20000 in
/-- Witness for C6 at a concrete state and symbol. -/
theorem C6_cost_estimation_agreement_witness :
    estimateCost 12 (initEnc 12 257) 65 =
      some (((encodeSymbol 12 (initEnc 12 257) 65).get (by decide)).1,
        ((encodeSymbol 12 (initEnc 12 257) 65).get (by decide)).2.length, []) := by
  have hs : (encodeSymbol 12 (initEnc 12 257) 65).isSome = true := by decide
  have hsome : encodeSymbol 12 (initEnc 12 257) 65 =
      some ((encodeSymbol 12 (initEnc 12 257) 65).get hs) := (Option.some_get hs).symm
  exact C6_cost_estimation_agreement 12 (initEnc 12 257) 65 _ _ hsome

/-! ## C7: snapshot neutrality -/

theorem map_range_getD (f : ℕ → ℕ) (n i : ℕ) (hi : i < n) :
    ((List.range n).map f).getD i 0 = f i := by
  rw [List.getD_eq_getElem _ 0 (by simp [hi]), List.getElem_map, List.getElem_range]

/-- Restoring a snapshot rebuilds the state saved, whatever happened in
between (as long as the stream pointer itself was not swapped). -/
theorem restore_save (st st₁ : EncState)
    (hlen : st.probability.length = st.maxSyms + 1)
    (hhs : st₁.hasStream = st.hasStream) :
    restoreState st₁ (saveState st) = st := by
  have hprob : (List.range (st.maxSyms + 1)).map
      (fun i => ((List.range (st.maxSyms + 1)).map
        (fun j => st.probability.getD j 0)).getD i 0) = st.probability := by
    refine List.ext_getElem (by simp [hlen]) ?_
    intro i h1 h2
    rw [List.getElem_map, List.getElem_range]
    have hi : i < st.maxSyms + 1 := by simpa using h1
    rw [map_range_getD _ _ _ hi, List.getD_eq_getElem _ 0 h2]
  simp only [restoreState, saveState]
  rw [hprob, hhs]

/-- In simulate mode `range_code` leaves the stream-identity fields alone and
writes nothing. -/
theorem rangeCode_simulate_fields (wp : ℕ) (st : EncState) (s : ℕ)
    (st₁ : EncState) (bits : List Bool) (cost : ℕ)
    (h : rangeCode wp true st s = some (st₁, bits, cost)) :
    st₁.hasStream = st.hasStream ∧ bits = [] := by
  unfold rangeCode at h
  simp only [] at h
  rw [encRenorm_sim_eq] at h
  rcases hE : encRenorm wp false (wp + 1)
      (st.low + ((st.high - st.low) + 1) * st.probability.getD s 0 /
        st.probability.getD st.maxSyms 0)
      (st.low + ((st.high - st.low) + 1) * st.probability.getD (s + 1) 0 /
        st.probability.getD st.maxSyms 0 - 1) st.underflowCount with _ | r
  · rw [hE] at h
    exact absurd h (by simp)
  · rw [hE] at h
    simp only [Option.map_some', Option.some_inj, Prod.mk.injEq] at h
    obtain ⟨h1, h2, h3⟩ := h
    exact ⟨by rw [← h1], h2.symm⟩

theorem estimateCost_neutral (wp : ℕ) (st : EncState) (s : ℕ)
    (st' : EncState) (c : ℕ) (b : List Bool)
    (h : estimateCost wp st s = some (st', c, b)) :
    st'.hasStream = st.hasStream ∧ b = [] := by
  unfold estimateCost at h
  rcases hrc : rangeCode wp true st s with _ | ⟨st₁, bits, cost⟩
  · rw [hrc] at h
    exact absurd h (by simp)
  · rw [hrc] at h
    simp only [Option.some_inj, Prod.mk.injEq] at h
    obtain ⟨h1, h2, h3⟩ := h
    obtain ⟨hf, hb⟩ := rangeCode_simulate_fields wp st s st₁ bits cost hrc
    constructor
    · rw [← h1]
      exact hf
    · rw [← h3, hb]

theorem estimateList_neutral (wp : ℕ) :
    ∀ syms (st st' : EncState) (c : ℕ) (b : List Bool),
      estimateList wp st syms = some (st', c, b) →
      st'.hasStream = st.hasStream ∧ b = [] := by
  intro syms
  induction syms with
  | nil =>
    intro st st' c b h
    simp only [estimateList, Option.some_inj, Prod.mk.injEq] at h
    obtain ⟨h1, _, h3⟩ := h
    exact ⟨by rw [← h1], h3.symm⟩
  | cons s rest ih =>
    intro st st' c b h
    simp only [estimateList] at h
    rcases h1 : estimateCost wp st s with _ | ⟨st₁, c₁, b₁⟩
    · rw [h1] at h
      exact absurd h (by simp)
    · rw [h1] at h
      simp only [] at h
      rcases h2 : estimateList wp st₁ rest with _ | ⟨st₂, c₂, b₂⟩
      · rw [h2] at h
        exact absurd h (by simp)
      · rw [h2] at h
        simp only [Option.some_inj, Prod.mk.injEq] at h
        obtain ⟨hh1, _, hh3⟩ := h
        obtain ⟨hf1, hb1⟩ := estimateCost_neutral wp st s st₁ c₁ b₁ h1
        obtain ⟨hf2, hb2⟩ := ih st₁ st₂ c₂ b₂ h2
        constructor
        · rw [← hh1, hf2, hf1]
        · rw [← hh3, hb1, hb2]
          rfl

/-- C7: for every encoder state, the bracket `save_state()`; any sequence of
`estimate_cost` calls; `restore_state(snapshot, true)` leaves `low`, `high`,
`underflow_count`, `flushed`, `tmp_range`, `max_syms`, the model table and
the external bit sink exactly as at the save point (the restore path copies
the snapshot's `max_syms + 1` model entries whether or not it had to
reallocate, and the simulate path writes no bits). -/
theorem C7_snapshot_neutrality (wp : ℕ) (st : EncState) (syms : List ℕ)
    (st₁ : EncState) (c : ℕ) (b : List Bool)
    (hlen : st.probability.length = st.maxSyms + 1)
    (h : estimateList wp st syms = some (st₁, c, b)) :
    restoreState st₁ (saveState st) = st ∧ b = [] := by
  obtain ⟨hf, hb⟩ := estimateList_neutral wp syms st st₁ c b h
  exact ⟨restore_save st st₁ hlen hf, hb⟩

set_option maxRecDepth 20000 in
/-- Witness for C7 at a concrete state and symbol sequence. -/
theorem C7_snapshot_neutrality_witness :
    restoreState ((estimateList 12 (initEnc 12 257) [65, 66]).get (by decide)).1
        (saveState (initEnc 12 257)) = initEnc 12 257 ∧
    ((estimateList 12 (initEnc 12 257) [65, 66]).get (by decide)).2.2 = [] := by
  have hs : (estimateList 12 (initEnc 12 257) [65, 66]).isSome = true := by decide
  have hsome : estimateList 12 (initEnc 12 257) [65, 66] =
      some ((estimateList 12 (initEnc 12 257) [65, 66]).get hs) :=
    (Option.some_get hs).symm
  exact C7_snapshot_neutrality 12 (initEnc 12 257) [65, 66] _ _ _ (by decide) hsome

/-! ## C5 (amended): the decoder has no corruption detection -/

/-- C5 (amended): `scalable_adc_c` surfaces no `DecodeCorrupt` error — it has
no error path at all.  Whenever the probe satisfies `p ≥ C[N]` (a corrupt
stream per the claim), the downward scan simply stops at the top symbol and
`decode_symbol` returns `maxSyms - 1` as an ordinary symbol. -/
theorem C5_no_corruption_detection (wp : ℕ) (S : List Bool) (st : DecState)
    (hw : 2 ≤ wp)
    (hlen : st.probability.length = st.maxSyms + 1)
    (hC : st.probability.Chain' (· < ·))
    (hC0 : st.probability.getD 0 0 = 0)
    (hlh : st.low ≤ st.high) (hh : st.high < 2 ^ wp)
    (hT1 : 1 ≤ st.probability.getD st.maxSyms 0)
    (hrange : st.probability.getD st.maxSyms 0 ≤ (st.high - st.low) + 1)
    (hp : st.probability.getD st.maxSyms 0 ≤
      ((st.code - st.low + 1) * st.probability.getD st.maxSyms 0 - 1) /
        ((st.high - st.low) + 1)) :
    ∃ st', decodeSymbol wp S st = some (st', st.maxSyms - 1) := by
  have hNpos : 1 ≤ st.maxSyms := by
    by_contra hcon
    have h0 : st.maxSyms = 0 := by omega
    rw [h0, hC0] at hT1
    omega
  have hidx : st.maxSyms - 1 + 1 = st.maxSyms := by omega
  -- the downward scan stops immediately at the top symbol
  have hscan : scanDown st.probability
      (((st.code - st.low + 1) * st.probability.getD st.maxSyms 0 - 1) /
        ((st.high - st.low) + 1)) (st.maxSyms - 1) = st.maxSyms - 1 := by
    rcases hcase : st.maxSyms - 1 with _ | k
    · rfl
    · rw [scanDown]
      rw [if_neg]
      push_neg
      have hlt : st.probability.getD (k + 1) 0 < st.probability.getD st.maxSyms 0 :=
        strict_getD_lt hC (by omega) (by omega)
      omega
  have hnb := @narrow_bounds ((st.high - st.low) + 1)
    (st.probability.getD st.maxSyms 0)
    (st.probability.getD (st.maxSyms - 1) 0)
    (st.probability.getD (st.maxSyms - 1 + 1) 0)
    st.low st.high rfl hlh
    (strict_getD_lt hC (by omega) (by omega))
    (by rw [hidx]) hT1 hrange
  obtain ⟨l, h, c, pp, i, hr, _, _, _, _, _, _⟩ := decRenorm_run wp S hw wp
    (st.low + ((st.high - st.low) + 1) * st.probability.getD (st.maxSyms - 1) 0 /
      st.probability.getD st.maxSyms 0)
    (st.low + ((st.high - st.low) + 1) * st.probability.getD (st.maxSyms - 1 + 1) 0 /
      st.probability.getD st.maxSyms 0 - 1)
    st.code st.pos hnb.2.1 (lt_of_le_of_lt hnb.2.2 hh) (by
      have h1 : 1 ≤ (st.low + ((st.high - st.low) + 1) *
          st.probability.getD (st.maxSyms - 1 + 1) 0 /
            st.probability.getD st.maxSyms 0 - 1) -
          (st.low + ((st.high - st.low) + 1) *
            st.probability.getD (st.maxSyms - 1) 0 /
              st.probability.getD st.maxSyms 0) + 1 := by omega
      have h2 : 2 ^ (wp - 1) < 2 ^ wp := Nat.pow_lt_pow_right (by norm_num) (by omega)
      calc 2 ^ (wp - 1) < 2 ^ wp := h2
        _ = 1 * 2 ^ wp := (Nat.one_mul _).symm
        _ ≤ _ := Nat.mul_le_mul_right _ h1)
  refine ⟨⟨h, l, (st.high - st.low) + 1, st.maxSyms, c, pp,
    updateAndScale wp (st.maxSyms - 1) st.maxSyms st.probability⟩, ?_⟩
  simp only [decodeSymbol, getCurrentProb]
  rw [if_pos (show st.maxSyms ≠ 0 by omega)]
  rw [hscan]
  simp only [removeRange]
  rw [hr]

/-- Witness for C5 (amended), reusing the counterexample's garbled state. -/
theorem C5_no_corruption_detection_witness :
    ∃ st', decodeSymbol 4 []
      { high := 15, low := 0, tmpRange := 0, maxSyms := 2, code := 100,
        pos := 0, probability := [0, 1, 2] } = some (st', 2 - 1) :=
  C5_no_corruption_detection 4 []
    { high := 15, low := 0, tmpRange := 0, maxSyms := 2, code := 100,
      pos := 0, probability := [0, 1, 2] }
    (by decide) (by decide) (by simp [List.chain'_cons]) (by decide) (by decide)
    (by decide) (by decide) (by decide) (by decide)

/-! ## Bit-window values -/

theorem wval_nil (n : ℕ) : wval [] n = 0 := by
  induction n with
  | zero => rfl
  | succ k ih => simp [wval, ih]

theorem wval_lt (s : List Bool) (n : ℕ) : wval s n < 2 ^ n := by
  induction n with
  | zero => simp [wval]
  | succ k ih =>
    have hp : 2 ^ (k + 1) = 2 * 2 ^ k := by rw [pow_succ]; ring
    have hb : (s.getD k false).toNat ≤ 1 := Bool.toNat_le _
    simp only [wval]
    omega

theorem wval_congr (a b : List Bool) (n : ℕ)
    (h : ∀ i, i < n → a.getD i false = b.getD i false) : wval a n = wval b n := by
  induction n with
  | zero => rfl
  | succ k ih =>
    simp only [wval]
    rw [ih (fun i hi => h i (by omega)), h k (by omega)]

theorem wval_append (xs ys : List Bool) :
    ∀ k, wval (xs ++ ys) (xs.length + k) =
      wval xs xs.length * 2 ^ k + wval ys k := by
  intro k
  induction k with
  | zero =>
    have hc : wval (xs ++ ys) xs.length = wval xs xs.length := by
      refine wval_congr _ _ _ (fun i hi => ?_)
      rw [List.getD_append _ _ _ _ hi]
    simp [hc, wval]
  | succ k ih =>
    have hstep : xs.length + (k + 1) = (xs.length + k) + 1 := by omega
    rw [hstep]
    simp only [wval]
    rw [ih]
    have hget : (xs ++ ys).getD (xs.length + k) false = ys.getD k false := by
      rw [List.getD_append_right _ _ _ _ (by omega)]
      congr 1
      omega
    rw [hget]
    have hp : 2 ^ (k + 1) = 2 ^ k * 2 := by rw [pow_succ]
    rw [hp]
    ring

theorem wval_pad (xs : List Bool) (n : ℕ) (h : xs.length ≤ n) :
    wval xs n = wval xs xs.length * 2 ^ (n - xs.length) := by
  have h1 : xs.length + (n - xs.length) = n := by omega
  have h2 := wval_append xs [] (n - xs.length)
  rw [List.append_nil, h1, wval_nil] at h2
  omega

theorem wval_replicate (b : Bool) : ∀ m, wval (List.replicate m b) m =
    b.toNat * (2 ^ m - 1) := by
  intro m
  induction m with
  | zero => rfl
  | succ k ih =>
    simp only [wval]
    have hc : wval (List.replicate (k + 1) b) k = wval (List.replicate k b) k := by
      refine wval_congr _ _ _ (fun i hi => ?_)
      rw [List.getD_eq_getElem _ _ (by simp; omega), List.getD_eq_getElem _ _ (by simp [hi]),
        List.getElem_replicate, List.getElem_replicate]
    have hg : (List.replicate (k + 1) b).getD k false = b := by
      rw [List.getD_eq_getElem _ _ (by simp), List.getElem_replicate]
    rw [hc, ih, hg]
    have hp : 2 ^ (k + 1) = 2 * 2 ^ k := by rw [pow_succ]; ring
    have h1 : 1 ≤ 2 ^ k := Nat.one_le_two_pow
    cases b <;> simp [Bool.toNat] <;> omega

theorem getD_drop (l : List Bool) (m i : ℕ) :
    (l.drop m).getD i false = l.getD (m + i) false := by
  rw [List.getD_eq_getD_get?, List.getD_eq_getD_get?, List.get?_drop]

/-! ## Backward window containment through the encoder loop -/

/-- If after a run of the encoder renormalisation loop the remaining stream
window sits inside the final range, then the window at the start (the loop's
own output bits followed by that stream) sits inside the starting range. -/
theorem encRenorm_cont (wp : ℕ) (hw : 2 ≤ wp) :
    ∀ fuel low high uc r rest, low ≤ high → high < 2 ^ wp →
      encRenorm wp false fuel low high uc = some r →
      contAt wp rest r.low r.high r.uc →
      contAt wp (r.bits ++ rest) low high uc := by
  obtain ⟨v, rfl⟩ : ∃ v, wp = v + 2 := ⟨wp - 2, by omega⟩
  have e1 : v + 2 - 1 = v + 1 := rfl
  have e2 : v + 2 - 2 = v := rfl
  intro fuel
  induction fuel with
  | zero =>
    intro low high uc r rest hlh hh h hcont
    exact absurd h (by simp [encRenorm])
  | succ f ih =>
    intro low high uc r rest hlh hh h hcont
    have hp := pow_split (v + 2) (by omega)
    have hp2 := pow_split2 (v + 2) (by omega)
    rw [e1] at hp
    rw [e1, e2] at hp2
    rw [encRenorm.eq_2] at h
    by_cases hA : high.testBit (v + 2 - 1) = low.testBit (v + 2 - 1)
    · rw [if_pos hA] at h
      have hcase := (branchA_iff (by omega) hlh hh).mp hA
      have hkey : ∃ low' high', ∃ bb : Bool,
          (2 * low) % 2 ^ (v + 2) = low' ∧
          (2 * high + 1) % 2 ^ (v + 2) = high' ∧
          low' ≤ high' ∧ high' < 2 ^ (v + 2) ∧
          decide (high / 2 ^ (v + 2 - 1) % 2 = 1) = bb ∧
          decide ((high / 2 ^ (v + 2 - 1) ^^^ 1) ≠ 0) = !bb ∧
          ((bb = false ∧ low' = 2 * low ∧ high' = 2 * high + 1 ∧
            low < 2 ^ (v + 1) ∧ high < 2 ^ (v + 1)) ∨
           (bb = true ∧ low' = 2 * (low - 2 ^ (v + 1)) ∧
            high' = 2 * (high - 2 ^ (v + 1)) + 1 ∧
            2 ^ (v + 1) ≤ low ∧ 2 ^ (v + 1) ≤ high)) := by
        rw [e1] at hcase ⊢
        rcases hcase with hlo | hhi
        · have ht : high / 2 ^ (v + 1) = 0 := Nat.div_eq_of_lt hlo
          refine ⟨2 * low, 2 * high + 1, false, ?_, ?_, by omega, by omega, ?_, ?_, ?_⟩
          · rw [hp]
            exact mod_dbl_lo (by omega)
          · rw [hp]
            exact mod_dbl1_lo hlo
          · rw [ht]
            decide
          · rw [ht]
            decide
          · exact Or.inl ⟨rfl, rfl, rfl, by omega, hlo⟩
        · have ht : high / 2 ^ (v + 1) = 1 := by
            have := hp
            exact Nat.div_eq_of_lt_le (by omega) (by omega)
          refine ⟨2 * (low - 2 ^ (v + 1)), 2 * (high - 2 ^ (v + 1)) + 1, true,
            ?_, ?_, by omega, by omega, ?_, ?_, ?_⟩
          · rw [hp]
            exact mod_dbl_hi hhi (by omega)
          · rw [hp]
            exact mod_dbl1_hi (by omega) (by omega)
          · rw [ht]
            decide
          · rw [ht]
            decide
          · exact Or.inr ⟨rfl, rfl, rfl, hhi, by omega⟩
      obtain ⟨low', high', bb, he1', he2', hlh', hh', hb1, hb2, hbcase⟩ := hkey
      rw [he1', he2'] at h
      rcases hrec : encRenorm (v + 2) false f low' high' 0 with _ | r'
      · rw [hrec] at h
        exact absurd h (by simp)
      · rw [hrec] at h
        simp only [Option.some_inj] at h
        subst h
        simp only [contAt] at hcont ⊢
        have hIH := ih low' high' 0 r' rest hlh' hh' hrec (by
          simpa [contAt] using hcont)
        simp only [contAt] at hIH
        -- name the two windows
        rw [hb1, hb2]
        have hlen1 : (bb :: List.replicate uc (!bb)).length = uc + 1 := by simp
        have hsz : uc + (v + 2) = (uc + 1) + (v + 1) := by omega
        have hsplit : wval ((bb :: List.replicate uc (!bb)) ++ (r'.bits ++ rest))
            (uc + (v + 2)) =
            wval (bb :: List.replicate uc (!bb)) (uc + 1) * 2 ^ (v + 1) +
              wval (r'.bits ++ rest) (v + 1) := by
          have h0 := wval_append (bb :: List.replicate uc (!bb)) (r'.bits ++ rest) (v + 1)
          rw [hlen1] at h0
          rw [hsz]
          exact h0
        have hval : wval (bb :: List.replicate uc (!bb)) (uc + 1) =
            bb.toNat * 2 ^ uc + (!bb).toNat * (2 ^ uc - 1) := by
          have h1 : (bb :: List.replicate uc (!bb)) =
              [bb] ++ List.replicate uc (!bb) := rfl
          have h2 := wval_append [bb] (List.replicate uc (!bb)) uc
          simp only [List.length_singleton] at h2
          rw [h1]
          have h3 : uc + 1 = 1 + uc := by omega
          rw [h3, h2, wval_replicate]
          have : wval [bb] 1 = bb.toNat := by
            cases bb <;> rfl
          rw [this]
        have hW1 : wval (r'.bits ++ rest) (0 + (v + 2)) =
            wval (r'.bits ++ rest) (v + 1) * 2 +
              ((r'.bits ++ rest).getD (v + 1) false).toNat := by
          have : (0 : ℕ) + (v + 2) = (v + 1) + 1 := by omega
          rw [this]
          rfl
        rw [hW1] at hIH
        simp only [pow_zero, Nat.sub_self, zero_mul, add_zero, e1] at hIH
        have hbit : ((r'.bits ++ rest).getD (v + 1) false).toNat ≤ 1 := Bool.toNat_le _
        have hu1 : (1 : ℕ) ≤ 2 ^ uc := Nat.one_le_two_pow
        simp only [Bool.false_eq_true, if_false, List.append_assoc]
        rw [hsplit, e1]
        rcases hbcase with ⟨hbb, hl', hh'', hlt1, hlt2⟩ | ⟨hbb, hl', hh'', hge1, hge2⟩
        · subst hbb
          rw [hl', hh''] at hIH
          have hv : wval ((false : Bool) :: List.replicate uc (!false)) (uc + 1) =
              2 ^ uc - 1 := by
            rw [hval]
            simp
          rw [hv]
          exact ⟨by omega, by omega⟩
        · subst hbb
          rw [hl', hh''] at hIH
          have hv : wval ((true : Bool) :: List.replicate uc (!true)) (uc + 1) =
              2 ^ uc := by
            rw [hval]
            simp
          rw [hv]
          have hsm : 2 ^ uc * 2 ^ (v + 1) = (2 ^ uc - 1) * 2 ^ (v + 1) + 2 ^ (v + 1) := by
            have h3 : (2 ^ uc - 1) * 2 ^ (v + 1) = 2 ^ uc * 2 ^ (v + 1) - 1 * 2 ^ (v + 1) :=
              Nat.sub_mul _ _ _
            have h4 : 2 ^ (v + 1) ≤ 2 ^ uc * 2 ^ (v + 1) :=
              Nat.le_mul_of_pos_left _ (Nat.pos_pow_of_pos _ (by norm_num))
            omega
          rw [hsm]
          exact ⟨by omega, by omega⟩
    · rw [if_neg hA] at h
      by_cases hB : (low.testBit (v + 2 - 2) && !high.testBit (v + 2 - 2)) = true
      · rw [if_pos hB] at h
        have hnotA := (not_iff_not.mpr (branchA_iff (by omega) hlh hh)).mp hA
        push_neg at hnotA
        obtain ⟨hhige, hlowlt⟩ := hnotA
        obtain ⟨hBl, hBh⟩ := (branchB_iff (by omega) hlowlt hhige hh).mp hB
        rw [e1] at hhige hlowlt
        rw [e2] at hBl hBh
        rw [e1] at hBh
        have he0 : low % 2 ^ (v + 2 - 2) = low - 2 ^ v := by
          rw [e2, Nat.mod_eq_sub_mod hBl]
          exact Nat.mod_eq_of_lt (by omega)
        have he1' : (2 * (low % 2 ^ (v + 2 - 2))) % 2 ^ (v + 2) = 2 * (low - 2 ^ v) := by
          rw [he0, hp]
          exact mod_dbl_lo (by omega)
        have he2' : (2 * (high + 2 ^ (v + 2 - 2)) + 1) % 2 ^ (v + 2) =
            2 * (high - 2 ^ v) + 1 := by
          rw [e2, hp]
          have := mod_dbl1_hi (m := 2 ^ (v + 1)) (x := high + 2 ^ v) (by omega) (by omega)
          rw [this]
          congr 2
          omega
        rw [he1', he2'] at h
        rcases hrec : encRenorm (v + 2) false f (2 * (low - 2 ^ v))
            (2 * (high - 2 ^ v) + 1) (uc + 1) with _ | r'
        · rw [hrec] at h
          exact absurd h (by simp)
        · rw [hrec] at h
          simp only [Option.some_inj] at h
          subst h
          simp only [contAt] at hcont ⊢
          have hIH := ih (2 * (low - 2 ^ v)) (2 * (high - 2 ^ v) + 1) (uc + 1) r'
            rest (by omega) (by omega) hrec (by simpa [contAt] using hcont)
          simp only [contAt] at hIH
          have hW1 : wval (r'.bits ++ rest) (uc + 1 + (v + 2)) =
              wval (r'.bits ++ rest) (uc + (v + 2)) * 2 +
                ((r'.bits ++ rest).getD (uc + (v + 2)) false).toNat := by
            have : uc + 1 + (v + 2) = (uc + (v + 2)) + 1 := by omega
            rw [this]
            rfl
          rw [hW1, e1] at hIH
          have hbit : ((r'.bits ++ rest).getD (uc + (v + 2)) false).toNat ≤ 1 :=
            Bool.toNat_le _
          have hpu : 2 ^ (uc + 1) = 2 * 2 ^ uc := by rw [pow_succ]; ring
          have hu1 : (1 : ℕ) ≤ 2 ^ uc := Nat.one_le_two_pow
          have hrel : (2 ^ (uc + 1) - 1) * 2 ^ (v + 1) =
              2 * ((2 ^ uc - 1) * 2 ^ (v + 1)) + 2 ^ (v + 1) := by
            have h2 : (2 * 2 ^ uc - 1) * 2 ^ (v + 1) =
                2 * 2 ^ uc * 2 ^ (v + 1) - 1 * 2 ^ (v + 1) := Nat.sub_mul _ _ _
            have h3 : (2 ^ uc - 1) * 2 ^ (v + 1) =
                2 ^ uc * 2 ^ (v + 1) - 1 * 2 ^ (v + 1) := Nat.sub_mul _ _ _
            have h4 : 2 ^ (v + 1) ≤ 2 ^ uc * 2 ^ (v + 1) :=
              Nat.le_mul_of_pos_left _ (Nat.pos_pow_of_pos _ (by norm_num))
            have h5 : 2 * 2 ^ uc * 2 ^ (v + 1) = 2 * (2 ^ uc * 2 ^ (v + 1)) := by ring
            rw [hpu]
            omega
          rw [hrel] at hIH
          rw [e1]
          omega
      · rw [if_neg hB] at h
        simp only [Option.some_inj] at h
        subst h
        simpa using hcont

/-! ## Model invariant preservation -/

theorem table_entries_le_last {C : List ℕ} {n : ℕ} (hC : C.Chain' (· < ·))
    (hlen : C.length = n + 1) : ∀ c ∈ C, c ≤ C.getD n 0 := by
  intro c hc
  rcases List.mem_iff_getElem.mp hc with ⟨j, hj, hxj⟩
  have hj' : C.getD j 0 = c := by
    rw [List.getD_eq_getElem _ 0 hj]
    exact hxj
  rw [← hj']
  exact strict_getD_le hC (by omega) (by omega)

theorem scaleModel_facts (wp n : ℕ) (C : List ℕ) (hw : 2 ≤ wp)
    (hlen : C.length = n + 1) (hC : C.Chain' (· < ·)) (hC0 : C.getD 0 0 = 0)
    (hb : ∀ c ∈ C, c < 2 ^ wp) (hn : n < 2 ^ (wp - 2)) :
    (scaleModel wp C).length = n + 1 ∧
    (scaleModel wp C).getD 0 0 = 0 ∧
    (scaleModel wp C).Chain' (· < ·) ∧
    (scaleModel wp C).getD n 0 ≤ C.getD n 0 / 2 + n := by
  cases C with
  | nil => simp at hlen
  | cons c0 rest =>
    have hc0 : c0 = 0 := by simpa using hC0
    subst hc0
    simp only [List.length_cons] at hlen
    have hp := pow_split wp (by omega)
    have hp2 := pow_split2 wp hw
    have hdiv : (2 ^ wp - 1) / 2 = 2 ^ (wp - 1) - 1 := by omega
    have hM : ∀ x ∈ rest, x ≤ 2 ^ wp - 1 := by
      intro x hx
      have := hb x (List.mem_cons_of_mem _ hx)
      omega
    have heq : scaleAux wp 0 rest = scaleSpecAux 0 rest := by
      refine scaleAux_eq_specAux wp (2 ^ wp - 1) rest 0 hM (by omega) ?_
      rw [hdiv]
      have h1 : 1 ≤ 2 ^ (wp - 2) := Nat.one_le_two_pow
      omega
    have heqM : scaleModel wp (0 :: rest) = (0 : ℕ) :: scaleSpecAux 0 rest := by
      show (0 : ℕ) :: scaleAux wp 0 rest = _
      rw [heq]
    refine ⟨by rw [scaleModel_length]; simpa using hlen, by rw [heqM]; rfl, ?_, ?_⟩
    · rw [heqM]
      exact scaleSpecAux_chain 0 rest
    · rcases Nat.eq_zero_or_pos n with h0 | hpos
      · subst h0
        have hre : rest = [] := List.length_eq_zero.mp (by omega)
        subst hre
        simp [scaleModel, scaleAux]
      · obtain ⟨k, rfl⟩ := Nat.exists_eq_succ_of_ne_zero (Nat.pos_iff_ne_zero.mp hpos)
        simp only [Nat.succ_eq_add_one] at hlen ⊢
        have hMr : ∀ x ∈ rest, x ≤ (0 :: rest).getD (k + 1) 0 := by
          intro x hx
          exact table_entries_le_last hC (by simp; omega) x (List.mem_cons_of_mem _ hx)
        have hout : (scaleModel wp (0 :: rest)).getD (k + 1) 0 =
            (scaleSpecAux 0 rest).getD k 0 := by
          rw [heqM, List.getD_cons_succ]
        rw [hout]
        have hbnd := scaleSpecAux_getD_le ((0 :: rest).getD (k + 1) 0) rest 0 k
          hMr (by omega)
        simp only [Nat.zero_max] at hbnd
        omega

theorem updateModel_getD_last (wp s n : ℕ) (C : List ℕ) (hlen : C.length = n + 1)
    (hs : s < n) (hbound : C.getD n 0 + 1 < 2 ^ wp) :
    (updateModel wp s C).getD n 0 = C.getD n 0 + 1 := by
  rw [updateModel_getD wp s C n (by omega), if_pos (by omega),
    Nat.mod_eq_of_lt (by omega)]

theorem updateModel_getD_head (wp s : ℕ) (C : List ℕ) (hne : C ≠ []) :
    (updateModel wp s C).getD 0 0 = C.getD 0 0 := by
  rw [updateModel_getD wp s C 0 (by
    cases C with
    | nil => exact absurd rfl hne
    | cons a tl => simp), if_neg (by omega)]

/-- One adaptive step (increment then possible rescale) keeps the model
well formed and the total strictly below the rescale ceiling. -/
theorem updateAndScale_facts (wp n s : ℕ) (C : List ℕ) (hw : 2 ≤ wp) (hs : s < n)
    (hlen : C.length = n + 1) (hC : C.Chain' (· < ·)) (hC0 : C.getD 0 0 = 0)
    (hT : C.getD n 0 < maxTotal wp) (hn3 : n + 2 ≤ 2 ^ (wp - 3)) :
    (updateAndScale wp s n C).length = n + 1 ∧
    (updateAndScale wp s n C).getD 0 0 = 0 ∧
    (updateAndScale wp s n C).Chain' (· < ·) ∧
    (updateAndScale wp s n C).getD n 0 < maxTotal wp := by
  have hw3 : 4 ≤ wp := by
    by_contra hcon
    have h0 : wp - 3 = 0 := by omega
    rw [h0, pow_zero] at hn3
    omega
  have hq : 2 ^ (wp - 2) = 2 * 2 ^ (wp - 3) := by
    rw [← Nat.pow_succ']
    congr 1
    omega
  have hq2 : 2 ^ (wp - 2) ≤ 2 ^ wp := Nat.pow_le_pow_right (by norm_num) (by omega)
  have hmax : maxTotal wp = 2 ^ (wp - 2) - 1 := rfl
  have hble : ∀ c ∈ C, c + 1 < 2 ^ wp := by
    intro c hc
    have := table_entries_le_last hC hlen c hc
    omega
  have hlast1 : (updateModel wp s C).getD n 0 = C.getD n 0 + 1 :=
    updateModel_getD_last wp s n C hlen hs (by omega)
  have hlen1 : (updateModel wp s C).length = n + 1 := by
    rw [updateModel_length]
    exact hlen
  have hC1 : (updateModel wp s C).Chain' (· < ·) := updateModel_chain wp s C hC hble
  have hC01 : (updateModel wp s C).getD 0 0 = 0 := by
    rw [updateModel_getD_head wp s C (by intro hnil; rw [hnil] at hlen; simp at hlen)]
    exact hC0
  have hb1 : ∀ c ∈ updateModel wp s C, c < 2 ^ wp := by
    intro c hc
    have := table_entries_le_last hC1 hlen1 c hc
    omega
  unfold updateAndScale
  by_cases htrig : maxTotal wp ≤ (updateModel wp s C).getD n 0
  · rw [if_pos htrig]
    obtain ⟨hf1, hf2, hf3, hf4⟩ := scaleModel_facts wp n (updateModel wp s C) hw hlen1
      hC1 hC01 hb1 (by omega)
    refine ⟨hf1, hf2, hf3, ?_⟩
    have hup : (updateModel wp s C).getD n 0 ≤ maxTotal wp := by omega
    have : (updateModel wp s C).getD n 0 / 2 ≤ 2 ^ (wp - 3) - 1 := by omega
    omega
  · rw [if_neg htrig]
    exact ⟨hlen1, hC01, hC1, by omega⟩

/-- An encode step succeeds from a well-formed encoder state and preserves
the invariant; the range fields and emitted bits come from the
renormalisation loop run on the narrowed range. -/
theorem encodeSymbol_ok (wp n : ℕ) (st : EncState) (s : ℕ)
    (hw : 2 ≤ wp) (hs : s < n) (hn3 : n + 2 ≤ 2 ^ (wp - 3)) (hok : EncOk wp n st) :
    ∃ r, encRenorm wp false (wp + 1)
        (st.low + ((st.high - st.low) + 1) * st.probability.getD s 0 /
          st.probability.getD st.maxSyms 0)
        (st.low + ((st.high - st.low) + 1) * st.probability.getD (s + 1) 0 /
          st.probability.getD st.maxSyms 0 - 1)
        st.underflowCount = some r ∧
      encodeSymbol wp st s = some
        ({ st with
           low := r.low, high := r.high, underflowCount := r.uc,
           tmpRange := (st.high - st.low) + 1,
           probability := updateAndScale wp s st.maxSyms st.probability }, r.bits) ∧
      EncOk wp n
        { st with
          low := r.low, high := r.high, underflowCount := r.uc,
          tmpRange := (st.high - st.low) + 1,
          probability := updateAndScale wp s st.maxSyms st.probability } ∧
      (∀ rest, contAt wp rest r.low r.high r.uc →
        contAt wp (r.bits ++ rest) st.low st.high st.underflowCount) := by
  obtain ⟨hms, hlen, hC0, hC, hTmax, hlh, hh, hA, hB, hfl, hhs⟩ := hok
  have hn1 : 1 ≤ n := by omega
  have hT1 : 1 ≤ st.probability.getD st.maxSyms 0 := by
    rw [hms]
    have := strict_getD_lt hC (show 0 < n by omega) (by omega)
    omega
  have hwidth := exit_width hw hlh hh hA hB
  have hrange : st.probability.getD st.maxSyms 0 ≤ (st.high - st.low) + 1 := by
    rw [hms]
    have : (maxTotal wp) = 2 ^ (wp - 2) - 1 := rfl
    omega
  have hnb := @narrow_bounds ((st.high - st.low) + 1)
    (st.probability.getD st.maxSyms 0)
    (st.probability.getD s 0) (st.probability.getD (s + 1) 0)
    st.low st.high rfl hlh
    (strict_getD_lt hC (by omega) (by omega))
    (by rw [hms]; exact strict_getD_le hC (by omega) (by omega)) hT1 hrange
  obtain ⟨r, hr, hiter, hrlh, hrhh, hrA, hrB⟩ := encRenorm_run wp false hw wp _ _
    st.underflowCount hnb.2.1 (lt_of_le_of_lt hnb.2.2 hh) (by
      have h1 : 1 ≤ (st.low + ((st.high - st.low) + 1) * st.probability.getD (s + 1) 0 /
          st.probability.getD st.maxSyms 0 - 1) -
          (st.low + ((st.high - st.low) + 1) * st.probability.getD s 0 /
            st.probability.getD st.maxSyms 0) + 1 := by omega
      have h2 : 2 ^ (wp - 1) < 2 ^ wp := Nat.pow_lt_pow_right (by norm_num) (by omega)
      calc 2 ^ (wp - 1) < 2 ^ wp := h2
        _ = 1 * 2 ^ wp := (Nat.one_mul _).symm
        _ ≤ _ := Nat.mul_le_mul_right _ h1)
  refine ⟨r, hr, ?_, ?_, ?_⟩
  · unfold encodeSymbol rangeCode
    simp only []
    rw [hr]
  · obtain ⟨hu1, hu2, hu3, hu4⟩ := updateAndScale_facts wp n s st.probability hw hs
      hlen hC hC0 hTmax hn3
    rw [hms]
    exact ⟨rfl, hu1, hu2, hu3, hu4, hrlh, hrhh, hrA, hrB, hfl, hhs⟩
  · intro rest hcr
    have hcl := encRenorm_cont wp hw (wp + 1) _ _ st.underflowCount r rest
      hnb.2.1 (lt_of_le_of_lt hnb.2.2 hh) hr hcr
    simp only [contAt] at hcl ⊢
    exact ⟨le_trans (Nat.add_le_add_right hnb.1 _) hcl.1,
      le_trans hcl.2 (Nat.add_le_add_right hnb.2.2 _)⟩

/-- Value of the flush pattern: one bit followed by a run of its complement. -/
theorem wval_bit_run (b : Bool) (m : ℕ) :
    wval (b :: List.replicate m (!b)) (m + 1) =
      b.toNat * 2 ^ m + (!b).toNat * (2 ^ m - 1) := by
  have h2 := wval_append [b] (List.replicate m (!b)) m
  have h1 : ([b] ++ List.replicate m (!b)) = b :: List.replicate m (!b) := rfl
  have h4 : wval [b] 1 = b.toNat := by cases b <;> rfl
  have h3 : m + 1 = 1 + m := by omega
  have h5 : [b].length = 1 := rfl
  rw [h5] at h2
  rw [h3, ← h1, h2, wval_replicate, h4]

/-- The bits written by `flush` land inside the current window: the flush
pattern read at the pending-underflow offset is a value in `[low, high]`. -/
theorem flush_cont (wp low high uc : ℕ) (hw : 2 ≤ wp)
    (hlow : low < 2 ^ (wp - 1)) (hhigh : 2 ^ (wp - 1) ≤ high) :
    contAt wp (low.testBit (wp - 2) :: List.replicate (uc + 1) (!low.testBit (wp - 2)))
      low high uc := by
  have hp2 := pow_split2 wp hw
  have hxlt : low < 2 ^ wp :=
    lt_of_lt_of_le hlow (Nat.pow_le_pow_right (by norm_num) (by omega))
  have hsec := @testBit_sec_iff wp low hw hxlt
  rw [Nat.mod_eq_of_lt hlow] at hsec
  have hlenf : (low.testBit (wp - 2) ::
      List.replicate (uc + 1) (!low.testBit (wp - 2))).length = uc + 2 := by simp
  have hpad := wval_pad (low.testBit (wp - 2) ::
    List.replicate (uc + 1) (!low.testBit (wp - 2))) (uc + wp) (by rw [hlenf]; omega)
  rw [hlenf] at hpad
  have hidx : uc + wp - (uc + 2) = wp - 2 := by omega
  rw [hidx] at hpad
  unfold contAt
  rw [hpad, wval_bit_run]
  have hA0 : 2 ^ (uc + 1) * 2 ^ (wp - 2) = 2 ^ uc * 2 ^ (wp - 1) := by
    rw [pow_succ, hp2]
    ring
  have hA1 : (2 ^ (uc + 1) - 1) * 2 ^ (wp - 2) =
      2 ^ uc * 2 ^ (wp - 1) - 2 ^ (wp - 2) := by
    rw [Nat.sub_mul, one_mul, hA0]
  have hA2 : (2 ^ uc - 1) * 2 ^ (wp - 1) = 2 ^ uc * 2 ^ (wp - 1) - 2 ^ (wp - 1) := by
    rw [Nat.sub_mul, one_mul]
  have hA3 : 2 ^ (wp - 1) ≤ 2 ^ uc * 2 ^ (wp - 1) :=
    Nat.le_mul_of_pos_left _ (Nat.pos_pow_of_pos _ (by norm_num))
  cases hbit : low.testBit (wp - 2) with
  | false =>
    have hlo : ¬ (2 ^ (wp - 2) ≤ low) := by
      intro hcon
      have := hsec.mpr hcon
      rw [hbit] at this
      exact Bool.false_ne_true this
    simp only [Bool.toNat_false, Bool.not_false, Bool.toNat_true, zero_mul, one_mul,
      zero_add]
    rw [hA1, hA2]
    omega
  | true =>
    have hlo : 2 ^ (wp - 2) ≤ low := hsec.mp hbit
    simp only [Bool.toNat_true, Bool.not_true, Bool.toNat_false, zero_mul, one_mul,
      add_zero]
    rw [hA0, hA2]
    omega

/-- Unfolding of `encodeFrom` at a cons: one symbol, then the rest. -/
theorem encodeFrom_cons (wp : ℕ) (st : EncState) (s : ℕ) (rest : List ℕ) :
    encodeFrom wp st (s :: rest) =
      match encodeSymbol wp st s with
      | none => none
      | some (st₁, b₁) =>
        match encodeFrom wp st₁ rest with
        | none => none
        | some (st₂, b₂) => some (st₂, b₁ ++ b₂) := by
  unfold encodeFrom
  show (match
      match encodeSymbol wp st s with
      | none => none
      | some (st₁, b₁) =>
        match encodeSymbols wp st₁ rest with
        | none => none
        | some (st₂, b₂) => some (st₂, b₁ ++ b₂) with
    | none => none
    | some (st₁, b) => some ((flushEnc wp st₁ false).1, b ++ (flushEnc wp st₁ false).2.1)) = _
  cases h1 : encodeSymbol wp st s with
  | none => rfl
  | some p =>
    obtain ⟨st₁, b₁⟩ := p
    simp only []
    cases h2 : encodeSymbols wp st₁ rest with
    | none => rfl
    | some q =>
      obtain ⟨st₂, b₂⟩ := q
      simp only [List.append_assoc]

/-- Running the encoder from any well-formed state over a list of valid
symbols and flushing succeeds, and the produced bits satisfy the window
containment at the starting state. -/
theorem encodeFrom_run (wp n : ℕ) (hw : 2 ≤ wp) (hn3 : n + 2 ≤ 2 ^ (wp - 3)) :
    ∀ syms (st : EncState), EncOk wp n st → (∀ s ∈ syms, s < n) →
    ∃ stF bits, encodeFrom wp st syms = some (stF, bits) ∧
      contAt wp bits st.low st.high st.underflowCount := by
  intro syms
  induction syms with
  | nil =>
    intro st hok _
    obtain ⟨hms, hlen, hC0, hC, hTmax, hlh, hh, hA, hB, hfl, hhs⟩ := hok
    have hwidth := exit_width hw hlh hh hA hB
    have hflush : flushEnc wp st false =
        ({ st with underflowCount := 0, flushed := true },
          st.low.testBit (wp - 2) ::
            List.replicate (st.underflowCount + 1) (!st.low.testBit (wp - 2)), false) := by
      unfold flushEnc
      rw [hhs, hfl]
      rfl
    refine ⟨(flushEnc wp st false).1, (flushEnc wp st false).2.1, ?_, ?_⟩
    · unfold encodeFrom encodeSymbols
      simp only []
      rw [List.nil_append]
    · rw [hflush]
      exact flush_cont wp st.low st.high st.underflowCount hw hwidth.1 hwidth.2.1
  | cons s rest ih =>
    intro st hok hval
    obtain ⟨r, hr, heq, hok', hcont⟩ := encodeSymbol_ok wp n st s hw
      (hval s (by simp)) hn3 hok
    obtain ⟨stF, b₂, hrun, hcont₂⟩ := ih _ hok' (fun x hx => hval x (by simp [hx]))
    refine ⟨stF, r.bits ++ b₂, ?_, ?_⟩
    · rw [encodeFrom_cons, heq]
      simp only []
      rw [hrun]
    · exact hcont b₂ hcont₂

/-! ## Decoder loop synchronisation -/

/-- Running the decoder renormalisation loop against the stream produced by
the encoder loop tracks it exactly: same final range, the read cursor
advances over precisely the emitted bits, and the code/window relation is
re-established at the exit state. -/
theorem decRenorm_sync (wp : ℕ) (hw : 2 ≤ wp) (S : List Bool) :
    ∀ fuel low high uc code pos aPos r rest, low ≤ high → high < 2 ^ wp →
      encRenorm wp false fuel low high uc = some r →
      S.drop aPos = r.bits ++ rest →
      pos = aPos + (uc + wp) →
      code + (2 ^ uc - 1) * 2 ^ (wp - 1) = wval (S.drop aPos) (uc + wp) →
      contAt wp rest r.low r.high r.uc →
      ∃ c' p', decRenorm wp S fuel low high code pos =
          some (r.low, r.high, c', p', r.iters) ∧
        p' = aPos + r.bits.length + (r.uc + wp) ∧
        c' + (2 ^ r.uc - 1) * 2 ^ (wp - 1) =
          wval (S.drop (aPos + r.bits.length)) (r.uc + wp) := by
  obtain ⟨v, rfl⟩ : ∃ v, wp = v + 2 := ⟨wp - 2, by omega⟩
  have e1 : v + 2 - 1 = v + 1 := rfl
  have e2 : v + 2 - 2 = v := rfl
  intro fuel
  induction fuel with
  | zero =>
    intro low high uc code pos aPos r rest hlh hh h hdrop hpos hcode hexit
    exact absurd h (by simp [encRenorm])
  | succ f ih =>
    intro low high uc code pos aPos r rest hlh hh h hdrop hpos hcode hexit
    have hp := pow_split (v + 2) (by omega)
    have hp2 := pow_split2 (v + 2) (by omega)
    rw [e1] at hp
    rw [e1, e2] at hp2
    have hcontD := encRenorm_cont (v + 2) (by omega) (f + 1) low high uc r rest
      hlh hh h hexit
    rw [← hdrop] at hcontD
    simp only [contAt] at hcontD
    rw [e1] at hcode hcontD ⊢
    have hclh : low ≤ code ∧ code ≤ high := by omega
    rw [encRenorm.eq_2] at h
    by_cases hA : high.testBit (v + 2 - 1) = low.testBit (v + 2 - 1)
    · rw [if_pos hA] at h
      have hcase := (branchA_iff (by omega) hlh hh).mp hA
      have hkey : ∃ low' high', ∃ bb : Bool,
          (2 * low) % 2 ^ (v + 2) = low' ∧
          (2 * high + 1) % 2 ^ (v + 2) = high' ∧
          low' ≤ high' ∧ high' < 2 ^ (v + 2) ∧
          decide (high / 2 ^ (v + 2 - 1) % 2 = 1) = bb ∧
          decide ((high / 2 ^ (v + 2 - 1) ^^^ 1) ≠ 0) = !bb ∧
          ((bb = false ∧ low' = 2 * low ∧ high' = 2 * high + 1 ∧
            low < 2 ^ (v + 1) ∧ high < 2 ^ (v + 1)) ∨
           (bb = true ∧ low' = 2 * (low - 2 ^ (v + 1)) ∧
            high' = 2 * (high - 2 ^ (v + 1)) + 1 ∧
            2 ^ (v + 1) ≤ low ∧ 2 ^ (v + 1) ≤ high)) := by
        rw [e1] at hcase ⊢
        rcases hcase with hlo | hhi
        · have ht : high / 2 ^ (v + 1) = 0 := Nat.div_eq_of_lt hlo
          refine ⟨2 * low, 2 * high + 1, false, ?_, ?_, by omega, by omega, ?_, ?_, ?_⟩
          · rw [hp]
            exact mod_dbl_lo (by omega)
          · rw [hp]
            exact mod_dbl1_lo hlo
          · rw [ht]
            decide
          · rw [ht]
            decide
          · exact Or.inl ⟨rfl, rfl, rfl, by omega, hlo⟩
        · have ht : high / 2 ^ (v + 1) = 1 := by
            have := hp
            exact Nat.div_eq_of_lt_le (by omega) (by omega)
          refine ⟨2 * (low - 2 ^ (v + 1)), 2 * (high - 2 ^ (v + 1)) + 1, true,
            ?_, ?_, by omega, by omega, ?_, ?_, ?_⟩
          · rw [hp]
            exact mod_dbl_hi hhi (by omega)
          · rw [hp]
            exact mod_dbl1_hi (by omega) (by omega)
          · rw [ht]
            decide
          · rw [ht]
            decide
          · exact Or.inr ⟨rfl, rfl, rfl, hhi, by omega⟩
      obtain ⟨low', high', bb, he1', he2', hlh', hh', hb1, hb2, hbcase⟩ := hkey
      rw [he1', he2'] at h
      rcases hrec : encRenorm (v + 2) false f low' high' 0 with _ | r'
      · rw [hrec] at h
        exact absurd h (by simp)
      · rw [hrec] at h
        simp only [Option.some_inj] at h
        subst h
        simp only [] at hdrop
        rw [hb1, hb2] at hdrop
        simp only [Bool.false_eq_true, if_false, List.append_assoc] at hdrop
        have hlen1 : (bb :: List.replicate uc (!bb)).length = uc + 1 := by simp
        have hsz : uc + (v + 2) = (uc + 1) + (v + 1) := by omega
        have hsplit : wval (S.drop aPos) (uc + (v + 2)) =
            wval (bb :: List.replicate uc (!bb)) (uc + 1) * 2 ^ (v + 1) +
              wval (r'.bits ++ rest) (v + 1) := by
          have h0 := wval_append (bb :: List.replicate uc (!bb)) (r'.bits ++ rest) (v + 1)
          rw [hlen1] at h0
          rw [hdrop, hsz]
          exact h0
        rw [hsplit, wval_bit_run] at hcode
        have hbitS : (S.getD pos false) = (r'.bits ++ rest).getD (v + 1) false := by
          rw [hpos]
          rw [(getD_drop S aPos (uc + (v + 2))).symm, hdrop,
            List.getD_append_right _ _ _ _ (by rw [hlen1]; omega)]
          congr 1
          rw [hlen1]
          omega
        have hWstep : wval (r'.bits ++ rest) (v + 2) =
            wval (r'.bits ++ rest) (v + 1) * 2 +
              ((r'.bits ++ rest).getD (v + 1) false).toNat := rfl
        have htle : ((r'.bits ++ rest).getD (v + 1) false).toNat ≤ 1 := Bool.toNat_le _
        have hwlt' : wval (r'.bits ++ rest) (v + 1) < 2 ^ (v + 1) := wval_lt _ _
        have hcnew : (2 * code + (S.getD pos false).toNat) % 2 ^ (v + 2) =
            wval (r'.bits ++ rest) (v + 2) := by
          rw [hbitS]
          rcases hbcase with ⟨hbb, _, _, hlt1, hlt2⟩ | ⟨hbb, _, _, hge1, hge2⟩
          · subst hbb
            simp only [Bool.toNat_false, Bool.not_false, Bool.toNat_true, zero_mul,
              one_mul, zero_add] at hcode
            have hc : code = wval (r'.bits ++ rest) (v + 1) := by omega
            rw [Nat.mod_eq_of_lt (by omega), hWstep]
            omega
          · subst hbb
            simp only [Bool.toNat_true, Bool.not_true, Bool.toNat_false, one_mul,
              zero_mul, add_zero] at hcode
            have hsm : 2 ^ uc * 2 ^ (v + 1) =
                (2 ^ uc - 1) * 2 ^ (v + 1) + 2 ^ (v + 1) := by
              have h3 : (2 ^ uc - 1) * 2 ^ (v + 1) =
                  2 ^ uc * 2 ^ (v + 1) - 1 * 2 ^ (v + 1) := Nat.sub_mul _ _ _
              have h4 : 2 ^ (v + 1) ≤ 2 ^ uc * 2 ^ (v + 1) :=
                Nat.le_mul_of_pos_left _ (Nat.pos_pow_of_pos _ (by norm_num))
              omega
            have hc : code = 2 ^ (v + 1) + wval (r'.bits ++ rest) (v + 1) := by omega
            rw [Nat.mod_eq_sub_mod (by omega), Nat.mod_eq_of_lt (by omega), hWstep]
            omega
        have hdrop' : S.drop (aPos + (uc + 1)) = r'.bits ++ rest := by
          have h1 : S.drop (aPos + (uc + 1)) = (S.drop aPos).drop (uc + 1) := by
            rw [List.drop_drop]
          rw [h1, hdrop, ← hlen1, List.drop_left]
        obtain ⟨c', p', hdec, hpe, hcode'⟩ := ih low' high' 0
          ((2 * code + (S.getD pos false).toNat) % 2 ^ (v + 2)) (pos + 1)
          (aPos + (uc + 1)) r' rest hlh' hh' hrec hdrop' (by omega)
          (by
            simp only [pow_zero, Nat.sub_self, zero_mul, add_zero, Nat.zero_add]
            rw [hcnew, hdrop'])
          hexit
        rw [e1] at hcode'
        refine ⟨c', p', ?_, ?_, ?_⟩
        · rw [decRenorm.eq_2, if_pos hA, he1', he2', hdec]
        · simp only [Bool.false_eq_true, if_false, List.length_append, List.length_cons,
            List.length_replicate]
          omega
        · simp only [Bool.false_eq_true, if_false, List.length_append, List.length_cons,
            List.length_replicate]
          rw [show aPos + (uc + 1) + r'.bits.length =
            aPos + (uc + 1 + r'.bits.length) from by omega] at hcode'
          exact hcode'
    · rw [if_neg hA] at h
      by_cases hB : (low.testBit (v + 2 - 2) && !high.testBit (v + 2 - 2)) = true
      · rw [if_pos hB] at h
        have hnotA := (not_iff_not.mpr (branchA_iff (by omega) hlh hh)).mp hA
        push_neg at hnotA
        obtain ⟨hhige, hlowlt⟩ := hnotA
        obtain ⟨hBl, hBh⟩ := (branchB_iff (by omega) hlowlt hhige hh).mp hB
        rw [e1] at hhige hlowlt
        rw [e2] at hBl hBh
        rw [e1] at hBh
        have he0 : low % 2 ^ (v + 2 - 2) = low - 2 ^ v := by
          rw [e2, Nat.mod_eq_sub_mod hBl]
          exact Nat.mod_eq_of_lt (by omega)
        have he1' : (2 * (low % 2 ^ (v + 2 - 2))) % 2 ^ (v + 2) = 2 * (low - 2 ^ v) := by
          rw [he0, hp]
          exact mod_dbl_lo (by omega)
        have he2' : (2 * (high + 2 ^ (v + 2 - 2)) + 1) % 2 ^ (v + 2) =
            2 * (high - 2 ^ v) + 1 := by
          rw [e2, hp]
          have := mod_dbl1_hi (m := 2 ^ (v + 1)) (x := high + 2 ^ v) (by omega) (by omega)
          rw [this]
          congr 2
          omega
        rw [he1', he2'] at h
        rcases hrec : encRenorm (v + 2) false f (2 * (low - 2 ^ v))
            (2 * (high - 2 ^ v) + 1) (uc + 1) with _ | r'
        · rw [hrec] at h
          exact absurd h (by simp)
        · rw [hrec] at h
          simp only [Option.some_inj] at h
          subst h
          simp only [] at hdrop
          have hbitS : (S.getD pos false) = (S.drop aPos).getD (uc + (v + 2)) false := by
            rw [hpos]
            exact (getD_drop S aPos (uc + (v + 2))).symm
          have hWstep : wval (S.drop aPos) (uc + 1 + (v + 2)) =
              wval (S.drop aPos) (uc + (v + 2)) * 2 +
                ((S.drop aPos).getD (uc + (v + 2)) false).toNat := by
            rw [show uc + 1 + (v + 2) = (uc + (v + 2)) + 1 from by omega]
            rfl
          have htle : ((S.drop aPos).getD (uc + (v + 2)) false).toNat ≤ 1 := Bool.toNat_le _
          have hcx : code < 2 ^ (v + 2) := by omega
          have hsec := @testBit_sec_iff (v + 2) code (by omega) hcx
          rw [e2, e1] at hsec
          have hxor : (2 * (if code.testBit (v + 2 - 2) then code - 2 ^ (v + 2 - 2)
              else code + 2 ^ (v + 2 - 2)) + (S.getD pos false).toNat) % 2 ^ (v + 2) =
              2 * code + (S.getD pos false).toNat - 2 ^ (v + 1) := by
            have ht2 : (S.getD pos false).toNat ≤ 1 := Bool.toNat_le _
            rw [e2]
            by_cases hcb : code < 2 ^ (v + 1)
            · have hm : code % 2 ^ (v + 1) = code := Nat.mod_eq_of_lt hcb
              have hbitset : code.testBit v = true := by
                rw [hsec, hm]
                omega
              rw [if_pos hbitset, Nat.mod_eq_of_lt (by omega)]
              omega
            · push_neg at hcb
              have hm : code % 2 ^ (v + 1) = code - 2 ^ (v + 1) := by
                rw [Nat.mod_eq_sub_mod hcb]
                exact Nat.mod_eq_of_lt (by omega)
              have hbitclr : code.testBit v = false := by
                rw [← Bool.not_eq_true, hsec, hm]
                push_neg
                omega
              rw [if_neg (by simp [hbitclr]), Nat.mod_eq_sub_mod (by omega),
                Nat.mod_eq_of_lt (by omega)]
              omega
          have hrel : (2 ^ (uc + 1) - 1) * 2 ^ (v + 1) =
              2 * ((2 ^ uc - 1) * 2 ^ (v + 1)) + 2 ^ (v + 1) := by
            have hpu : 2 ^ (uc + 1) = 2 * 2 ^ uc := by rw [pow_succ]; ring
            have h2 : (2 * 2 ^ uc - 1) * 2 ^ (v + 1) =
                2 * 2 ^ uc * 2 ^ (v + 1) - 1 * 2 ^ (v + 1) := Nat.sub_mul _ _ _
            have h3 : (2 ^ uc - 1) * 2 ^ (v + 1) =
                2 ^ uc * 2 ^ (v + 1) - 1 * 2 ^ (v + 1) := Nat.sub_mul _ _ _
            have h4 : 2 ^ (v + 1) ≤ 2 ^ uc * 2 ^ (v + 1) :=
              Nat.le_mul_of_pos_left _ (Nat.pos_pow_of_pos _ (by norm_num))
            have h5 : 2 * 2 ^ uc * 2 ^ (v + 1) = 2 * (2 ^ uc * 2 ^ (v + 1)) := by ring
            rw [hpu]
            omega
          have hcode1 : (2 * code + (S.getD pos false).toNat - 2 ^ (v + 1)) +
              (2 ^ (uc + 1) - 1) * 2 ^ (v + 1) =
              wval (S.drop aPos) (uc + 1 + (v + 2)) := by
            rw [hWstep, hrel, hbitS]
            omega
          obtain ⟨c', p', hdec, hpe, hcode'⟩ := ih (2 * (low - 2 ^ v))
            (2 * (high - 2 ^ v) + 1) (uc + 1)
            (2 * code + (S.getD pos false).toNat - 2 ^ (v + 1)) (pos + 1) aPos r' rest
            (by omega) (by omega) hrec hdrop (by omega) hcode1 hexit
          rw [e1] at hcode'
          refine ⟨c', p', ?_, ?_, ?_⟩
          · rw [decRenorm.eq_2, if_neg hA, if_pos hB, he1', he2', hxor, hdec]
          · exact hpe
          · exact hcode'
      · rw [if_neg hB] at h
        simp only [Option.some_inj] at h
        subst h
        refine ⟨code, pos, ?_, ?_, ?_⟩
        · rw [decRenorm.eq_2, if_neg hA, if_neg hB]
        · simp only [List.length_nil]
          omega
        · simpa using hcode

/-- The decoder probe `(((code - low) + 1) * total - 1) / tmp_range` falls in
the cumulative slice of the symbol whose narrowed interval contains the code
register. -/
theorem probe_in_slice {R T cl ch low code : ℕ} (hT : 1 ≤ T) (hTR : T ≤ R)
    (hcl : cl < ch) (hch : ch ≤ T)
    (h1 : low + R * cl / T ≤ code) (h2 : code ≤ low + R * ch / T - 1) :
    cl ≤ ((code - low + 1) * T - 1) / R ∧ ((code - low + 1) * T - 1) / R < ch := by
  have hR : 0 < R := by omega
  have hch1 : 1 ≤ R * ch / T := by
    rw [Nat.le_div_iff_mul_le (show 0 < T by omega)]
    calc 1 * T = T := one_mul T
    _ ≤ R := hTR
    _ = R * 1 := (mul_one R).symm
    _ ≤ R * ch := Nat.mul_le_mul_left _ (by omega)
  have hq1 : R * cl / T ≤ code - low := by omega
  have hq2 : (code - low) + 1 ≤ R * ch / T := by omega
  constructor
  · rw [Nat.le_div_iff_mul_le hR]
    have h3 : R * cl < (code - low + 1) * T := by
      have hdm := Nat.div_add_mod (R * cl) T
      have hmlt : (R * cl) % T < T := Nat.mod_lt _ (by omega)
      have h4 : (R * cl / T + 1) * T ≤ (code - low + 1) * T :=
        Nat.mul_le_mul_right _ (by omega)
      have h5 : (R * cl / T + 1) * T = T * (R * cl / T) + T := by ring
      omega
    have hcm : cl * R = R * cl := Nat.mul_comm _ _
    omega
  · rw [Nat.div_lt_iff_lt_mul hR]
    have h5 : (code - low + 1) * T ≤ R * ch / T * T := Nat.mul_le_mul_right _ hq2
    have h6 : R * ch / T * T ≤ R * ch := Nat.div_mul_le_self _ _
    have hcm : ch * R = R * ch := Nat.mul_comm _ _
    have hTpos : 1 ≤ (code - low + 1) * T := by
      calc 1 = 1 * 1 := rfl
      _ ≤ (code - low + 1) * T := Nat.mul_le_mul (by omega) hT
    omega

/-- In a strictly increasing cumulative table, at most one slice contains a
given probe value. -/
theorem slice_unique {C : List ℕ} (hC : C.Chain' (· < ·)) {p a b : ℕ}
    (ha : a + 1 < C.length) (hb : b + 1 < C.length)
    (ha1 : C.getD a 0 ≤ p) (ha2 : p < C.getD (a + 1) 0)
    (hb1 : C.getD b 0 ≤ p) (hb2 : p < C.getD (b + 1) 0) : a = b := by
  by_contra hne
  rcases Nat.lt_or_ge a b with hab | hab
  · have := strict_getD_le hC (show a + 1 ≤ b by omega) (by omega)
    omega
  · have hba : b < a := by omega
    have := strict_getD_le hC (show b + 1 ≤ a by omega) (by omega)
    omega

/-- One synchronised decode step: from a decoder state synced with a
well-formed encoder state, `decode_symbol` recovers exactly the symbol the
encoder coded, mirrors the range/model evolution, and re-syncs after the
emitted bits. -/
theorem decodeSymbol_sync (wp n : ℕ) (S : List Bool) (st : EncState) (d : DecState)
    (s aPos : ℕ) (r : RenormOut) (rest : List Bool)
    (hw : 2 ≤ wp) (hs : s < n) (hok : EncOk wp n st)
    (hr : encRenorm wp false (wp + 1)
        (st.low + ((st.high - st.low) + 1) * st.probability.getD s 0 /
          st.probability.getD st.maxSyms 0)
        (st.low + ((st.high - st.low) + 1) * st.probability.getD (s + 1) 0 /
          st.probability.getD st.maxSyms 0 - 1)
        st.underflowCount = some r)
    (hdrop : S.drop aPos = r.bits ++ rest)
    (hcont : contAt wp rest r.low r.high r.uc)
    (hsync : DecSyncAt wp S aPos st d) :
    ∃ c', decodeSymbol wp S d = some
      ({ high := r.high, low := r.low, tmpRange := (st.high - st.low) + 1,
         maxSyms := st.maxSyms, code := c', pos := aPos + r.bits.length + (r.uc + wp),
         probability := updateAndScale wp s st.maxSyms st.probability }, s) ∧
      c' + (2 ^ r.uc - 1) * 2 ^ (wp - 1) =
        wval (S.drop (aPos + r.bits.length)) (r.uc + wp) := by
  obtain ⟨hms, hlen, hC0, hC, hTmax, hlh, hh, hA, hB, hfl, hhs⟩ := hok
  obtain ⟨hdl, hdh, hdm, hdp, hdpos, hdcode⟩ := hsync
  have hn1 : 1 ≤ n := by omega
  have hT1 : 1 ≤ st.probability.getD st.maxSyms 0 := by
    rw [hms]
    have := strict_getD_lt hC (show 0 < n by omega) (by omega)
    omega
  have hwidth := exit_width hw hlh hh hA hB
  have hrange : st.probability.getD st.maxSyms 0 ≤ (st.high - st.low) + 1 := by
    rw [hms]
    have : (maxTotal wp) = 2 ^ (wp - 2) - 1 := rfl
    omega
  have hnb := @narrow_bounds ((st.high - st.low) + 1)
    (st.probability.getD st.maxSyms 0)
    (st.probability.getD s 0) (st.probability.getD (s + 1) 0)
    st.low st.high rfl hlh
    (strict_getD_lt hC (by omega) (by omega))
    (by rw [hms]; exact strict_getD_le hC (by omega) (by omega)) hT1 hrange
  have hcontN := encRenorm_cont wp hw (wp + 1) _ _ st.underflowCount r rest
    hnb.2.1 (lt_of_le_of_lt hnb.2.2 hh) hr hcont
  rw [← hdrop] at hcontN
  simp only [contAt] at hcontN
  have hcb : st.low + ((st.high - st.low) + 1) * st.probability.getD s 0 /
        st.probability.getD st.maxSyms 0 ≤ d.code ∧
      d.code ≤ st.low + ((st.high - st.low) + 1) * st.probability.getD (s + 1) 0 /
        st.probability.getD st.maxSyms 0 - 1 := by
    omega
  have hprobe := @probe_in_slice ((st.high - st.low) + 1)
    (st.probability.getD st.maxSyms 0)
    (st.probability.getD s 0) (st.probability.getD (s + 1) 0)
    st.low d.code hT1 hrange
    (strict_getD_lt hC (by omega) (by omega))
    (by rw [hms]; exact strict_getD_le hC (by omega) (by omega)) hcb.1 hcb.2
  have hlast : ((d.code - st.low + 1) * st.probability.getD st.maxSyms 0 - 1) /
      ((st.high - st.low) + 1) < st.probability.getD st.maxSyms 0 := by
    refine lt_of_lt_of_le hprobe.2 ?_
    rw [hms]
    exact strict_getD_le hC (by omega) (by omega)
  have hspec := scanDown_spec st.probability
    (((d.code - st.low + 1) * st.probability.getD st.maxSyms 0 - 1) /
      ((st.high - st.low) + 1)) hC hC0 (st.maxSyms - 1)
    (by rw [hlen, hms]; omega)
    (by
      rw [show st.maxSyms - 1 + 1 = st.maxSyms from by omega]
      exact hlast)
  have hsym : scanDown st.probability
      (((d.code - st.low + 1) * st.probability.getD st.maxSyms 0 - 1) /
        ((st.high - st.low) + 1)) (st.maxSyms - 1) = s := by
    refine slice_unique hC ?_ ?_ hspec.1 hspec.2.1 hprobe.1 hprobe.2
    · have := hspec.2.2
      rw [hlen, hms] at *
      omega
    · rw [hlen]
      omega
  have hds := decRenorm_sync wp hw S (wp + 1)
    (st.low + ((st.high - st.low) + 1) * st.probability.getD s 0 /
      st.probability.getD st.maxSyms 0)
    (st.low + ((st.high - st.low) + 1) * st.probability.getD (s + 1) 0 /
      st.probability.getD st.maxSyms 0 - 1)
    st.underflowCount d.code d.pos aPos r rest
    hnb.2.1 (lt_of_le_of_lt hnb.2.2 hh) hr hdrop (by omega) hdcode hcont
  obtain ⟨c', p', hdec, hpe, hcode'⟩ := hds
  have hdecD : decRenorm wp S (wp + 1)
      (d.low + ((d.high - d.low) + 1) * d.probability.getD s 0 /
        d.probability.getD d.maxSyms 0)
      (d.low + ((d.high - d.low) + 1) * d.probability.getD (s + 1) 0 /
        d.probability.getD d.maxSyms 0 - 1)
      d.code d.pos = some (r.low, r.high, c', p', r.iters) := by
    rw [hdl, hdh, hdm, hdp]
    exact hdec
  have hsymD : scanDown d.probability
      (((d.code - d.low + 1) * d.probability.getD d.maxSyms 0 - 1) /
        ((d.high - d.low) + 1)) (d.maxSyms - 1) = s := by
    rw [hdl, hdh, hdm, hdp]
    exact hsym
  refine ⟨c', ?_, hcode'⟩
  simp only [decodeSymbol, getCurrentProb]
  rw [if_pos (show d.maxSyms ≠ 0 from by rw [hdm, hms]; omega)]
  rw [hsymD]
  simp only [removeRange]
  rw [hdecD]
  simp only [Option.some_inj, Prod.mk.injEq]
  refine ⟨?_, trivial⟩
  rw [hpe, hdl, hdh, hdm, hdp]

/-- Decoding as many symbols as were encoded from a synced decoder state
recovers exactly the encoded symbol sequence. -/
theorem decodeFrom_sync (wp n : ℕ) (hw : 2 ≤ wp) (hn3 : n + 2 ≤ 2 ^ (wp - 3))
    (S : List Bool) :
    ∀ syms (st : EncState) (d : DecState) (aPos : ℕ) (stF : EncState)
      (bits : List Bool),
      EncOk wp n st → (∀ s ∈ syms, s < n) →
      encodeFrom wp st syms = some (stF, bits) →
      S.drop aPos = bits →
      DecSyncAt wp S aPos st d →
      ∃ d', decodeFrom wp S d syms.length = some (d', syms) := by
  intro syms
  induction syms with
  | nil =>
    intro st d aPos stF bits _ _ _ _ _
    exact ⟨d, rfl⟩
  | cons s rest ih =>
    intro st d aPos stF bits hok hval hEF hdrop hsync
    obtain ⟨r, hr, heq, hok', hcontStep⟩ := encodeSymbol_ok wp n st s hw
      (hval s (by simp)) hn3 hok
    obtain ⟨stF', b₂, hrun, hcont₂⟩ := encodeFrom_run wp n hw hn3 rest _ hok'
      (fun x hx => hval x (by simp [hx]))
    rw [encodeFrom_cons, heq] at hEF
    simp only [] at hEF
    rw [hrun] at hEF
    simp only [Option.some_inj, Prod.mk.injEq] at hEF
    obtain ⟨hstF, hbits⟩ := hEF
    subst hbits
    obtain ⟨c', hdecS, hcode'⟩ := decodeSymbol_sync wp n S st d s aPos r b₂ hw
      (hval s (by simp)) ⟨hok.1, hok.2.1, hok.2.2.1, hok.2.2.2.1, hok.2.2.2.2.1,
        hok.2.2.2.2.2.1, hok.2.2.2.2.2.2.1, hok.2.2.2.2.2.2.2.1,
        hok.2.2.2.2.2.2.2.2.1, hok.2.2.2.2.2.2.2.2.2⟩ hr hdrop hcont₂ hsync
    have hdrop₂ : S.drop (aPos + r.bits.length) = b₂ := by
      have h1 : S.drop (aPos + r.bits.length) = (S.drop aPos).drop r.bits.length := by
        rw [List.drop_drop]
      rw [h1, hdrop, List.drop_left]
    have hsync' : DecSyncAt wp S (aPos + r.bits.length)
        ({ st with
            low := r.low, high := r.high, underflowCount := r.uc,
            tmpRange := (st.high - st.low) + 1,
            probability := updateAndScale wp s st.maxSyms st.probability })
        ({ high := r.high, low := r.low, tmpRange := (st.high - st.low) + 1,
           maxSyms := st.maxSyms, code := c', pos := aPos + r.bits.length + (r.uc + wp),
           probability := updateAndScale wp s st.maxSyms st.probability }) := by
      refine ⟨rfl, rfl, rfl, rfl, ?_, hcode'⟩
      show aPos + r.bits.length + (r.uc + wp) = aPos + r.bits.length + r.uc + wp
      omega
    obtain ⟨dF, hdF⟩ := ih _ _ (aPos + r.bits.length) stF b₂ hok'
      (fun x hx => hval x (by simp [hx])) (by rw [hrun, hstF]) hdrop₂ hsync'
    refine ⟨dF, ?_⟩
    simp only [List.length_cons, decodeFrom]
    rw [hdecS]
    simp only []
    rw [hdF]

set_option maxRecDepth 40000 in
/-- C1: adaptive round-trip.  Encoding every byte of `B` with the adaptive
coder at alphabet `257` (uniform initial model), then the EOF symbol `256`,
then flushing, produces a bit stream from which the adaptive decoder with
the same alphabet and initial model decodes exactly the symbols of `B`
followed by `256`.  The width hypothesis `259 ≤ 2^(WP-3)` keeps the
cumulative total below the rescale ceiling (any `WP ≥ 12` qualifies). -/
theorem C1_adaptive_round_trip (wp : ℕ) (B : List ℕ)
    (hwp : 259 ≤ 2 ^ (wp - 3)) (hB : ∀ b ∈ B, b < 256) :
    ∃ stF S dF, encodeAll wp B = some (stF, S) ∧
      decodeAll wp S (B.length + 1) = some (dF, B ++ [256]) := by
  have hw4 : 4 ≤ wp := by
    by_contra hcon
    rw [show wp - 3 = 0 from by omega] at hwp
    norm_num at hwp
  have hw : 2 ≤ wp := by omega
  have hn3 : 257 + 2 ≤ 2 ^ (wp - 3) := hwp
  have hone : (1 : ℕ) ≤ 2 ^ wp := Nat.one_le_two_pow
  have hps := pow_split wp (by omega)
  have hb2 : 2 ^ (wp - 2) = 2 * 2 ^ (wp - 3) := by
    rw [← Nat.pow_succ']
    congr 1
    omega
  have hgetDlast : (List.range 258).getD 257 0 = 257 := by
    rw [List.getD_eq_getElem _ 0 (by simp), List.getElem_range]
  have hgetD0 : (List.range 258).getD 0 0 = 0 := by
    rw [List.getD_eq_getElem _ 0 (by simp), List.getElem_range]
  have htop : (2 ^ wp - 1).testBit (wp - 1) = true := by
    rw [@testBit_top_iff wp (2 ^ wp - 1) (by omega) (by omega)]
    omega
  have hok0 : EncOk wp 257 (initEnc wp 257) := by
    refine ⟨rfl, ?_, ?_, range_chain (257 + 1), ?_, ?_, ?_, ?_, ?_, rfl, rfl⟩
    · show (List.range 258).length = 257 + 1
      simp
    · exact hgetD0
    · show (List.range 258).getD 257 0 < maxTotal wp
      rw [hgetDlast]
      show 257 < 2 ^ (wp - 2) - 1
      omega
    · show 0 ≤ 2 ^ wp - 1
      omega
    · show 2 ^ wp - 1 < 2 ^ wp
      omega
    · show ¬((2 ^ wp - 1).testBit (wp - 1) = (0 : ℕ).testBit (wp - 1))
      rw [htop, Nat.zero_testBit]
      simp
    · have hB0 : ((0 : ℕ).testBit (wp - 2) && !(2 ^ wp - 1).testBit (wp - 2)) = false := by
        rw [Nat.zero_testBit]
        rfl
      exact hB0
  obtain ⟨stF, bits, hrun, _⟩ := encodeFrom_run wp 257 hw hn3 (B ++ [256])
    (initEnc wp 257) hok0 (by
      intro x hx
      rcases List.mem_append.mp hx with h | h
      · exact lt_trans (hB x h) (by omega)
      · simp at h
        omega)
  have hsync0 : DecSyncAt wp bits 0 (initEnc wp 257) (initDec wp 257 bits) := by
    refine ⟨rfl, rfl, rfl, rfl, by simp [initDec, initEnc], ?_⟩
    show wval bits wp + (2 ^ 0 - 1) * 2 ^ (wp - 1) = wval (bits.drop 0) (0 + wp)
    rw [List.drop_zero, Nat.zero_add]
    simp
  obtain ⟨dF, hdF⟩ := decodeFrom_sync wp 257 hw hn3 bits (B ++ [256])
    (initEnc wp 257) (initDec wp 257 bits) 0 stF bits hok0 (by
      intro x hx
      rcases List.mem_append.mp hx with h | h
      · exact lt_trans (hB x h) (by omega)
      · simp at h
        omega)
    hrun (List.drop_zero _) hsync0
  refine ⟨stF, bits, dF, hrun, ?_⟩
  unfold decodeAll
  rw [show B.length + 1 = (B ++ [256]).length from by simp]
  exact hdF

/-- Witness for C1 at `WP = 12` on the byte list `[65]`. -/
theorem C1_adaptive_round_trip_witness :
    ∃ stF S dF, encodeAll 12 [65] = some (stF, S) ∧
      decodeAll 12 S ([65].length + 1) = some (dF, [65] ++ [256]) :=
  C1_adaptive_round_trip 12 [65] (by norm_num) (by decide)

end ArithCoder
